import Mathlib

/-!
Shallow embedding of the XPC object model and wire codec of the repository
(file src/idevice/src/xpc/format.rs): the XPCObject tagged union, its binary
encoder and decoder, the XPCMessage framing layer, and the plist conversion.
Bytes are modelled as natural numbers below 256, byte buffers as lists, Rust
strings as their UTF-8 byte lists.  Fallible Rust functions return Except;
a Rust panic (slice out of bounds, arithmetic overflow, todo macro) is
modelled by the distinguished error value XPCError.crashed, as opposed to
an ordinary returned error.
-/

namespace XPCFormat

/-- Value of a little-endian byte list: leVal [b0, b1, ...] = b0 + 256*b1 + ... -/
def leVal (l : List Nat) : Nat :=
  l.foldr (fun b acc => b + 256 * acc) 0

/-- Little-endian bytes of a value cast to u32, as in (v as u32).to_le_bytes(). -/
def le32 (n : Nat) : List Nat :=
  [n % 256, n / 2 ^ 8 % 256, n / 2 ^ 16 % 256, n / 2 ^ 24 % 256]

/-- Little-endian bytes of a value cast to u64, as in v.to_le_bytes() for u64. -/
def le64 (n : Nat) : List Nat :=
  [n % 256, n / 2 ^ 8 % 256, n / 2 ^ 16 % 256, n / 2 ^ 24 % 256,
   n / 2 ^ 32 % 256, n / 2 ^ 40 % 256, n / 2 ^ 48 % 256, n / 2 ^ 56 % 256]

/-- Bytes of an i64 value, as in num.to_le_bytes(): two's complement, 8 bytes. -/
def le64i (n : Int) : List Nat :=
  le64 (n % 2 ^ 64).toNat

/-- The n bytes of the buffer starting at position pos. -/
def bytesAt (d : List Nat) (pos n : Nat) : List Nat :=
  (d.drop pos).take n

/-- The u32 read little-endian at byte offset pos (as in buf[pos..pos+4]). -/
def u32At (d : List Nat) (pos : Nat) : Nat :=
  leVal (bytesAt d pos 4)

/-- The u64 read little-endian at byte offset pos (as in buf[pos..pos+8]). -/
def u64At (d : List Nat) (pos : Nat) : Nat :=
  leVal (bytesAt d pos 8)

/-- Floor of the base-2 logarithm, written with explicit fuel so that it is
structurally recursive (and hence kernel-computable); log2Fuel fuel n equals
Nat.log2 n whenever n ≤ fuel. -/
def log2Fuel : Nat → Nat → Nat
  | 0, _ => 0
  | fuel + 1, n => if 2 ≤ n then log2Fuel fuel (n / 2) + 1 else 0

/-- Round a natural number to the nearest f64 (round to nearest, ties to even):
the exact value of the Rust conversion (len as f64).  Exact below 2^53; above,
the value is rounded to 53 significant bits. -/
def flRound (n : Nat) : Nat :=
  if n < 2 ^ 53 then n
  else
    let b := log2Fuel n n + 1
    let e := b - 53
    let q := n / 2 ^ e
    let r := n % 2 ^ e
    let h := 2 ^ (e - 1)
    if r < h then q * 2 ^ e
    else if h < r then (q + 1) * 2 ^ e
    else if q % 2 = 0 then q * 2 ^ e else (q + 1) * 2 ^ e

/-- Translation of XPCObject::calculate_padding, which computes
((len as f64) / 4.0).ceil() * 4.0 - (len as f64), cast to usize.
Every floating-point step after the initial conversion is exact: dividing the
rounded value x by 4.0 only shifts the exponent, ceil is exact on a
representable value, the ceiling times 4.0 shifts the exponent back without
overflow, and the final subtraction is of two representable integers whose
difference lies in [0, 3], hence is itself representable, so IEEE subtraction
returns it exactly and the usize cast is the identity on it.  The whole
computation therefore equals ceil(flRound len / 4) * 4 - flRound len. -/
def calculatePadding (len : Nat) : Nat :=
  (flRound len + 3) / 4 * 4 - flRound len

/-- Byte range test lo ≤ c ≤ hi used by the UTF-8 validator. -/
def byteIn (lo hi c : Nat) : Bool :=
  decide (lo ≤ c ∧ c ≤ hi)

/-- Continuation byte test of the UTF-8 validator: 0x80..0xBF. -/
def utf8Cont (c : Nat) : Bool :=
  byteIn 0x80 0xBF c

/-- UTF-8 validity of a byte list, as checked by CStr::to_str (std str::from_utf8). -/
def isUtf8 : List Nat → Bool
  | [] => true
  | b :: r =>
    if b < 0x80 then isUtf8 r
    else if b < 0xC2 then false
    else if b < 0xE0 then
      match r with
      | c1 :: r2 => utf8Cont c1 && isUtf8 r2
      | [] => false
    else if b < 0xF0 then
      match r with
      | c1 :: c2 :: r2 =>
        (if b = 0xE0 then byteIn 0xA0 0xBF c1
         else if b = 0xED then byteIn 0x80 0x9F c1
         else utf8Cont c1) && utf8Cont c2 && isUtf8 r2
      | _ => false
    else if b < 0xF5 then
      match r with
      | c1 :: c2 :: c3 :: r2 =>
        (if b = 0xF0 then byteIn 0x90 0xBF c1
         else if b = 0xF4 then byteIn 0x80 0x8F c1
         else utf8Cont c1) && utf8Cont c2 && utf8Cont c3 && isUtf8 r2
      | _ => false
    else false

/-- The XPCObject enum of src/idevice/src/xpc/format.rs.  Strings and
dictionary keys are Rust Strings, modelled as their UTF-8 byte lists; the
Dictionary variant is an IndexMap, modelled as its key/value list in
insertion order; Uuid carries the 16 bytes returned by uuid.as_bytes(). -/
inductive XPCObject where
  | bool (b : Bool)
  | dictionary (entries : List (List Nat × XPCObject))
  | array (items : List XPCObject)
  | int64 (n : Int)
  | uint64 (n : Nat)
  | string (s : List Nat)
  | data (d : List Nat)
  | uuid (u : List Nat)

/-- Error type covering XPCError plus the distinguished outcomes of the model:
crashed models a Rust panic, noFuel is the artefact of the fuelled decoder
(proved unreachable for the fuel the entry points pass). -/
inductive XPCError where
  | invalidType
  | readFailed
  | keyError
  | utf8Error
  | invalidMagic
  | invalidVersion
  | msgTooShort
  | msgMagic
  | msgBodyLen
  | plistUnsupported
  | crashed
  | noFuel
  deriving DecidableEq

namespace XPCObject

open XPCFormat

mutual

/-- Translation of XPCObject::encode_object (format.rs lines 165-225); the
Rust function appends to a buffer and always returns Ok, modelled as the pure
list of appended bytes. -/
def encodeObject : XPCObject → List Nat
  | .bool v =>
      le32 0x2000 ++ [if v then 0 else 1] ++ List.replicate 3 0
  | .dictionary d =>
      le32 0xf000 ++ le32 0 ++ le32 d.length ++ encodeEntries d
  | .array l =>
      le32 0xe000 ++ le32 0 ++ le32 l.length ++ encodeElems l
  | .int64 n =>
      le32 0x3000 ++ le64i n
  | .uint64 n =>
      le32 0x4000 ++ le64 n
  | .string s =>
      le32 0x9000 ++ le32 (s.length + 1) ++ s ++ [0] ++
        List.replicate (calculatePadding (s.length + 1)) 0
  | .data d =>
      le32 0x8000 ++ le32 d.length ++ d ++
        List.replicate (calculatePadding d.length) 0
  | .uuid u =>
      le32 0xa000 ++ le32 16 ++ u

/-- The dictionary loop of encode_object: key bytes, NUL, padding, value. -/
def encodeEntries : List (List Nat × XPCObject) → List Nat
  | [] => []
  | (k, v) :: r =>
      k ++ [0] ++ List.replicate (calculatePadding (k.length + 1)) 0 ++
        encodeObject v ++ encodeEntries r

/-- The array loop of encode_object: each element encoded in sequence. -/
def encodeElems : List XPCObject → List Nat
  | [] => []
  | x :: r => encodeObject x ++ encodeElems r

end

/-- Translation of XPCObject::encode (format.rs lines 157-163): the 8-byte
object-stream header (magic 0x42133742, version 0x00000005) followed by the
encoded object. -/
def encode (x : XPCObject) : List Nat :=
  le32 0x42133742 ++ le32 0x00000005 ++ encodeObject x

end XPCObject

/-- Cursor read_exact into an n-byte buffer: fails (io error) unless n bytes
remain from position pos. -/
def readExact (d : List Nat) (pos n : Nat) : Except XPCError (List Nat × Nat) :=
  if pos + n ≤ d.length then .ok (bytesAt d pos n, pos + n)
  else .error .readFailed

/-- Bytes consumed by BufRead::read_until(0) from a byte list: everything up
to and including the first zero byte, or the whole list when none occurs. -/
def readUntil0Bytes : List Nat → List Nat
  | [] => []
  | b :: r => if b = 0 then [0] else b :: readUntil0Bytes r

/-- BufRead::read_until(0): reads up to and including the first zero byte, or
to the end of the buffer when no zero occurs; infallible on a cursor.
Returns the bytes read and the new position. -/
def readUntil0 (d : List Nat) (pos : Nat) : List Nat × Nat :=
  let t := readUntil0Bytes (d.drop pos)
  (t, pos + t.length)

/-- CString::from_vec_with_nul followed by to_str and to_string: requires the
byte list to end in its only NUL byte, and the preceding bytes to be valid
UTF-8; yields those bytes (the Rust String). -/
def fromVecWithNul (v : List Nat) : Except XPCError (List Nat) :=
  if v.getLast? = some 0 then
    if v.dropLast.contains 0 then .error .keyError
    else if isUtf8 v.dropLast then .ok v.dropLast
    else .error .utf8Error
  else .error .keyError

/-- IndexMap::insert: replaces the value in place if the key is present,
otherwise appends the pair. -/
def indexMapInsert (m : List (List Nat × XPCObject)) (k : List Nat)
    (v : XPCObject) : List (List Nat × XPCObject) :=
  if m.any (fun kv => kv.1 == k) then
    m.map (fun kv => if kv.1 == k then (k, v) else kv)
  else m ++ [(k, v)]

/-- The IndexMap built by inserting the decoded pairs in order. -/
def foldInsert (l : List (List Nat × XPCObject)) : List (List Nat × XPCObject) :=
  l.foldl (fun m kv => indexMapInsert m kv.1 kv.2) []

/-- The dictionary loop of decode_object, parameterized by the decoder used
for the values (the recursive knot is tied in decodeObject): read a
NUL-terminated key, skip the key padding, decode the value, repeat count
times.  Returns the key/value pairs in decode order (the caller folds them
into the IndexMap). -/
def decodeEntries (dec : List Nat → Nat → Except XPCError (XPCObject × Nat))
    (d : List Nat) : Nat → Nat → Except XPCError (List (List Nat × XPCObject) × Nat)
  | pos, 0 => .ok ([], pos)
  | pos, c + 1 => do
    let (kbuf, pk) := readUntil0 d pos
    let k ← fromVecWithNul kbuf
    let pv := pk + calculatePadding (k.length + 1)
    let (v, p2) ← dec d pv
    let (rest, p3) ← decodeEntries dec d p2 c
    .ok ((k, v) :: rest, p3)

/-- The array loop of decode_object, parameterized by the element decoder:
decode count elements in sequence. -/
def decodeElems (dec : List Nat → Nat → Except XPCError (XPCObject × Nat))
    (d : List Nat) : Nat → Nat → Except XPCError (List XPCObject × Nat)
  | pos, 0 => .ok ([], pos)
  | pos, c + 1 => do
    let (x, p2) ← dec d pos
    let (rest, p3) ← decodeElems dec d p2 c
    .ok (x :: rest, p3)

namespace XPCObject

/-- Translation of XPCObject::decode_object (format.rs lines 241-320) over an
explicit cursor (buffer plus position), returning the decoded object and the
position after it.  The fuel argument is an artefact of the embedding, spent
one unit per dictionary/array nesting level; the entry points pass enough
fuel that XPCError.noFuel is unreachable (theorem decodeObject_ne_noFuel). -/
def decodeObject : Nat → List Nat → Nat → Except XPCError (XPCObject × Nat)
  | fuel, d, pos => do
    let (tagB, p1) ← readExact d pos 4
    let tag := leVal tagB
    if tag = 0xf000 then
      match fuel with
      | 0 => .error .noFuel
      | fuel + 1 => do
        let (_, p2) ← readExact d p1 4
        let (cntB, p3) ← readExact d p2 4
        let (entries, p4) ← decodeEntries (decodeObject fuel) d p3 (leVal cntB)
        .ok (.dictionary (foldInsert entries), p4)
    else if tag = 0xe000 then
      match fuel with
      | 0 => .error .noFuel
      | fuel + 1 => do
        let (_, p2) ← readExact d p1 4
        let (cntB, p3) ← readExact d p2 4
        let (elems, p4) ← decodeElems (decodeObject fuel) d p3 (leVal cntB)
        .ok (.array elems, p4)
    else if tag = 0x3000 then do
      let (b, p2) ← readExact d p1 8
      let m := leVal b
      .ok (.int64 (if m < 2 ^ 63 then (m : Int) else (m : Int) - 2 ^ 64), p2)
    else if tag = 0x4000 then do
      let (b, p2) ← readExact d p1 8
      .ok (.uint64 (leVal b), p2)
    else if tag = 0x9000 then do
      let (lenB, p2) ← readExact d p1 4
      let l := leVal lenB
      let padding := calculatePadding l
      let (sb, p3) ← readExact d p2 l
      let s ← fromVecWithNul sb
      .ok (.string s, p3 + padding)
    else if tag = 0x2000 then do
      let (b, p2) ← readExact d p1 4
      .ok (.bool (decide (b.headD 0 ≠ 0)), p2)
    else if tag = 0x8000 then do
      let (lenB, p2) ← readExact d p1 4
      let l := leVal lenB
      let padding := calculatePadding l
      let (db, p3) ← readExact d p2 l
      .ok (.data db, p3 + padding)
    else if tag = 0xa000 then do
      let (b, p2) ← readExact d p1 16
      .ok (.uuid b, p2)
    else .error .invalidType

/-- Translation of XPCObject::decode (format.rs lines 227-239).  The Rust code
slices buf[0..4] and buf[4..8] without any length check, so a buffer shorter
than the slice panics (modelled as XPCError.crashed) before any error can be
returned.  The body is decoded from buf[8..]; the fuel passed to the fuelled
object decoder is one more than that slice length, which theorem
decodeObject_ne_noFuel shows is always sufficient. -/
def decode (buf : List Nat) : Except XPCError XPCObject :=
  if buf.length < 4 then .error .crashed
  else if u32At buf 0 ≠ 0x42133742 then .error .invalidMagic
  else if buf.length < 8 then .error .crashed
  else if u32At buf 4 ≠ 0x00000005 then .error .invalidVersion
  else
    match decodeObject ((buf.drop 8).length + 1) (buf.drop 8) 0 with
    | .ok (x, _) => .ok x
    | .error e => .error e

end XPCObject

/-- The XPCMessage struct of format.rs: flags (u32), optional body, optional
message id (u64).  The message_id field is only populated by decode; encode
takes the id to send as a parameter. -/
structure XPCMessage where
  flags : Nat
  message : Option XPCObject
  message_id : Option Nat

namespace XPCMessage

/-- Translation of XPCMessage::encode (format.rs lines 431-447): magic
0x29b00b92, flags, body length as u64, the parameter message id as u64, then
the encoded body when a message is present. -/
def encode (self : XPCMessage) (messageId : Nat) : List Nat :=
  le32 0x29b00b92 ++ le32 self.flags ++
    (match self.message with
     | some msg =>
         le64 (XPCObject.encode msg).length ++ le64 messageId ++ XPCObject.encode msg
     | none => le64 0 ++ le64 messageId)

/-- Translation of XPCMessage::decode (format.rs lines 398-429).  The length
guard computes body_len + 24 in u64 arithmetic: in a release build the
addition wraps modulo 2^64 (a debug build would panic on overflow), so for
body_len at least 2^64 - 24 the guard passes and the subsequent slice
data[24 .. 24 + body_len], whose end also wraps in usize arithmetic, panics
(end below start), modelled as XPCError.crashed.  The usize-to-u64 cast of
data.len() is the identity (infallible on a 64-bit target, where a buffer is
shorter than 2^64 bytes by construction; theorems about buffers quantify over
lists of length below 2^64 where this modelling is exact). -/
def decode (data : List Nat) : Except XPCError XPCMessage :=
  if data.length < 24 then .error .msgTooShort
  else if u32At data 0 ≠ 0x29b00b92 then .error .msgMagic
  else if (u64At data 8 + 24) % 2 ^ 64 > data.length then .error .msgBodyLen
  else if u64At data 8 = 0 then .ok ⟨u32At data 4, none, some (u64At data 16)⟩
  else if 24 ≤ (24 + u64At data 8) % 2 ^ 64 ∧
      (24 + u64At data 8) % 2 ^ 64 ≤ data.length then
    match XPCObject.decode (bytesAt data 24 ((24 + u64At data 8) % 2 ^ 64 - 24)) with
    | .ok x => .ok ⟨u32At data 4, some x, some (u64At data 16)⟩
    | .error err => .error err
  else .error .crashed

end XPCMessage

/-- The generic property-list value tree (the plist::Value enum of the plist
crate) as far as the conversion in format.rs consumes it: dictionaries keep
insertion order, integer carries the mathematical value of a plist integer
(the crate admits the union of the i64 and u64 ranges), and the payloads of
date, real and uid are irrelevant to the conversion, which panics on them. -/
inductive PlistValue where
  | array (l : List PlistValue)
  | dictionary (l : List (List Nat × PlistValue))
  | boolean (b : Bool)
  | data (d : List Nat)
  | date
  | real
  | integer (n : Int)
  | string (s : List Nat)
  | uid

mutual

/-- Translation of impl From plist::Value for XPCObject (format.rs lines
105-128).  The Rust impl is total and panics on unsupported input: todo! on
date, real and uid, and unwrap of as_signed on an integer outside the i64
range.  The model returns none exactly where the Rust code panics. -/
def fromPlist : PlistValue → Option XPCObject
  | .array l => (fromPlistList l).map .array
  | .dictionary l => (fromPlistEntries l).map .dictionary
  | .boolean b => some (.bool b)
  | .data d => some (.data d)
  | .date => none
  | .real => none
  | .integer n =>
      if -(2 ^ 63 : Int) ≤ n ∧ n < 2 ^ 63 then some (.int64 n) else none
  | .string s => some (.string s)
  | .uid => none

/-- The array arm of the conversion: convert every element, propagating a
panic from any of them. -/
def fromPlistList : List PlistValue → Option (List XPCObject)
  | [] => some []
  | x :: r => do
      let y ← fromPlist x
      let rest ← fromPlistList r
      some (y :: rest)

/-- The dictionary arm of the conversion: convert every value in insertion
order, propagating a panic from any of them. -/
def fromPlistEntries : List (List Nat × PlistValue) →
    Option (List (List Nat × XPCObject))
  | [] => some []
  | (k, v) :: r => do
      let y ← fromPlist v
      let rest ← fromPlistEntries r
      some ((k, y) :: rest)

end

mutual

/-- Size bounds under which the floating-point padding computation of
calculate_padding is exact on every length it is applied to: every string and
key payload in the tree is at most 2^53 - 1 bytes long (so that the padded
length payload + 1 is at most 2^53), every data payload is at most 2^53
bytes long, and every uuid holds its 16 bytes.  Every tree a 64-bit process
can materialize satisfies these bounds. -/
def sizesOk : XPCObject → Bool
  | .bool _ => true
  | .int64 _ => true
  | .uint64 _ => true
  | .string s => decide (s.length + 1 ≤ 2 ^ 53)
  | .data d => decide (d.length ≤ 2 ^ 53)
  | .uuid u => decide (u.length = 16)
  | .array l => sizesOkList l
  | .dictionary d => sizesOkEntries d

/-- sizesOk on every element of an array. -/
def sizesOkList : List XPCObject → Bool
  | [] => true
  | x :: r => sizesOk x && sizesOkList r

/-- sizesOk on every dictionary entry, including its key. -/
def sizesOkEntries : List (List Nat × XPCObject) → Bool
  | [] => true
  | (k, v) :: r => decide (k.length + 1 ≤ 2 ^ 53) && sizesOk v && sizesOkEntries r

end

mutual

/-- The tree with every boolean leaf negated: the image of a tree under one
encode/decode round trip of this codec (the encoder writes true as 0, the
decoder reads 0 as false). -/
def negBools : XPCObject → XPCObject
  | .bool b => .bool !b
  | .dictionary d => .dictionary (negBoolsEntries d)
  | .array l => .array (negBoolsElems l)
  | .int64 n => .int64 n
  | .uint64 n => .uint64 n
  | .string s => .string s
  | .data d => .data d
  | .uuid u => .uuid u

/-- negBools mapped over dictionary entries. -/
def negBoolsEntries : List (List Nat × XPCObject) → List (List Nat × XPCObject)
  | [] => []
  | (k, v) :: r => (k, negBools v) :: negBoolsEntries r

/-- negBools mapped over array elements. -/
def negBoolsElems : List XPCObject → List XPCObject
  | [] => []
  | x :: r => negBools x :: negBoolsElems r

end

mutual

/-- Nesting height of a tree, used to bound the fuel the fuelled decoder
needs. -/
def height : XPCObject → Nat
  | .bool _ => 1
  | .int64 _ => 1
  | .uint64 _ => 1
  | .string _ => 1
  | .data _ => 1
  | .uuid _ => 1
  | .dictionary d => heightEntries d + 1
  | .array l => heightElems l + 1

/-- Maximum height of the values of dictionary entries. -/
def heightEntries : List (List Nat × XPCObject) → Nat
  | [] => 0
  | kv :: r => max (height kv.2) (heightEntries r)

/-- Maximum height of array elements. -/
def heightElems : List XPCObject → Nat
  | [] => 0
  | x :: r => max (height x) (heightElems r)

end

mutual

/-- Representability for the round trip: integer values within their Rust
ranges, strings and keys free of interior NUL bytes and valid UTF-8 with a
u32-sized length field, data and container counts that fit a u32, unique
dictionary keys (an IndexMap cannot hold duplicates), and no Uuid values
(the decoder fails to consume the Uuid length field, so Uuid never
round-trips; see the C1 analysis). -/
def rtOk : XPCObject → Bool
  | .bool _ => true
  | .int64 n => decide (-(2 ^ 63 : Int) ≤ n ∧ n < 2 ^ 63)
  | .uint64 n => decide (n < 2 ^ 64)
  | .string s => decide (¬ s.contains 0) && isUtf8 s && decide (s.length + 1 < 2 ^ 32)
  | .data d => decide (d.length < 2 ^ 32)
  | .uuid _ => false
  | .dictionary d =>
      decide (d.length < 2 ^ 32) && decide ((d.map Prod.fst).Nodup) && rtOkEntries d
  | .array l => decide (l.length < 2 ^ 32) && rtOkElems l

/-- rtOk for dictionary entries, including the key conditions. -/
def rtOkEntries : List (List Nat × XPCObject) → Bool
  | [] => true
  | (k, v) :: r =>
      decide (¬ k.contains 0) && isUtf8 k && decide (k.length + 1 < 2 ^ 32) &&
        rtOk v && rtOkEntries r

/-- rtOk for array elements. -/
def rtOkElems : List XPCObject → Bool
  | [] => true
  | x :: r => rtOk x && rtOkElems r

end

mutual

/-- Trees with no boolean leaf. -/
def boolFree : XPCObject → Bool
  | .bool _ => false
  | .dictionary d => boolFreeEntries d
  | .array l => boolFreeElems l
  | .int64 _ => true
  | .uint64 _ => true
  | .string _ => true
  | .data _ => true
  | .uuid _ => true

/-- boolFree over dictionary entries. -/
def boolFreeEntries : List (List Nat × XPCObject) → Bool
  | [] => true
  | (_, v) :: r => boolFree v && boolFreeEntries r

/-- boolFree over array elements. -/
def boolFreeElems : List XPCObject → Bool
  | [] => true
  | x :: r => boolFree x && boolFreeElems r

end

end XPCFormat

namespace XPCFormat

/-- The fuelled base-2 logarithm agrees with Nat.log2 once the fuel covers
the argument. -/
theorem log2Fuel_eq_log2 : ∀ fuel n, n ≤ fuel → log2Fuel fuel n = Nat.log2 n := by
  intro fuel
  induction fuel with
  | zero =>
    intro n h
    have h0 : n = 0 := by omega
    subst h0
    simp [log2Fuel, Nat.log2]
  | succ f ih =>
    intro n h
    rw [log2Fuel, Nat.log2]
    rcases Nat.lt_or_ge n 2 with h2 | h2
    · simp [Nat.not_le.mpr h2]
    · simp only [if_pos h2]
      rw [ih (n / 2) (by omega)]

/-- Conversion to f64 is exact up to 2^53. -/
theorem flRound_of_le {n : Nat} (h : n ≤ 2 ^ 53) : flRound n = n := by
  rcases Nat.lt_or_ge n (2 ^ 53) with h1 | h1
  · unfold flRound
    rw [if_pos h1]
  · have h2 : n = 2 ^ 53 := Nat.le_antisymm h h1
    subst h2
    decide

/-- On the exact domain the padding is the integer ceiling formula. -/
theorem calculatePadding_eq {n : Nat} (h : n ≤ 2 ^ 53) :
    calculatePadding n = (n + 3) / 4 * 4 - n := by
  unfold calculatePadding
  rw [flRound_of_le h]

/-- The padding value never exceeds 3, for any argument. -/
theorem calculatePadding_le3 (n : Nat) : calculatePadding n ≤ 3 := by
  unfold calculatePadding
  have h := Nat.div_mul_le_self (flRound n + 3) 4
  omega

/-- Reads that stay inside the first operand of an append are unaffected by
the appended tail. -/
theorem bytesAt_append {b : List Nat} (extra : List Nat) {pos n : Nat}
    (h : pos + n ≤ b.length) : bytesAt (b ++ extra) pos n = bytesAt b pos n := by
  unfold bytesAt
  rw [List.drop_append_of_le_length (by omega),
    List.take_append_of_le_length (by simp; omega)]

/-- A u32 read inside the first operand of an append is unaffected by the tail. -/
theorem u32At_append {b : List Nat} (extra : List Nat) {pos : Nat}
    (h : pos + 4 ≤ b.length) : u32At (b ++ extra) pos = u32At b pos := by
  unfold u32At
  rw [bytesAt_append extra h]

/-- A u64 read inside the first operand of an append is unaffected by the tail. -/
theorem u64At_append {b : List Nat} (extra : List Nat) {pos : Nat}
    (h : pos + 8 ≤ b.length) : u64At (b ++ extra) pos = u64At b pos := by
  unfold u64At
  rw [bytesAt_append extra h]

mutual

/-- Under the sizesOk bounds every encoded object occupies a multiple of 4
bytes. -/
theorem encodeObject_length_mod :
    ∀ x : XPCObject, sizesOk x = true → (XPCObject.encodeObject x).length % 4 = 0
  | .bool b, _ => by
    simp [XPCObject.encodeObject, le32]
  | .dictionary d, h => by
    have hh := encodeEntries_length_mod d (by simpa [sizesOk] using h)
    simp [XPCObject.encodeObject, le32, List.length_append]
    omega
  | .array l, h => by
    have hh := encodeElems_length_mod l (by simpa [sizesOk] using h)
    simp [XPCObject.encodeObject, le32, List.length_append]
    omega
  | .int64 n, _ => by
    simp [XPCObject.encodeObject, le32, le64i, le64]
  | .uint64 n, _ => by
    simp [XPCObject.encodeObject, le32, le64]
  | .string s, h => by
    have hs : s.length + 1 ≤ 2 ^ 53 := by simpa [sizesOk] using h
    have hp := calculatePadding_eq hs
    simp [XPCObject.encodeObject, le32, List.length_append, hp]
    omega
  | .data d, h => by
    have hs : d.length ≤ 2 ^ 53 := by simpa [sizesOk] using h
    have hp := calculatePadding_eq hs
    simp [XPCObject.encodeObject, le32, List.length_append, hp]
    omega
  | .uuid u, h => by
    have hs : u.length = 16 := by simpa [sizesOk] using h
    simp [XPCObject.encodeObject, le32, List.length_append, hs]

/-- Under the sizesOk bounds the encoded dictionary entries occupy a multiple
of 4 bytes. -/
theorem encodeEntries_length_mod :
    ∀ l, sizesOkEntries l = true → (XPCObject.encodeEntries l).length % 4 = 0
  | [], _ => by simp [XPCObject.encodeEntries]
  | (k, v) :: r, h => by
    have h3 : (k.length + 1 ≤ 2 ^ 53 ∧ sizesOk v = true) ∧ sizesOkEntries r = true := by
      simpa [sizesOkEntries, and_assoc] using h
    have hv := encodeObject_length_mod v h3.1.2
    have hr := encodeEntries_length_mod r h3.2
    have hp := calculatePadding_eq h3.1.1
    simp [XPCObject.encodeEntries, List.length_append, hp]
    omega

/-- Under the sizesOk bounds the encoded array elements occupy a multiple of
4 bytes. -/
theorem encodeElems_length_mod :
    ∀ l, sizesOkList l = true → (XPCObject.encodeElems l).length % 4 = 0
  | [], _ => by simp [XPCObject.encodeElems]
  | x :: r, h => by
    have h3 : sizesOk x = true ∧ sizesOkList r = true := by
      simpa [sizesOkList] using h
    have hv := encodeObject_length_mod x h3.1
    have hr := encodeElems_length_mod r h3.2
    simp [XPCObject.encodeElems, List.length_append]
    omega

end

set_option maxRecDepth 4000 in
/-- The floating-point padding rounds to zero at 2^53 + 1, where the correct
padding would be 3. -/
theorem calculatePadding_pow53_succ : calculatePadding (2 ^ 53 + 1) = 0 := by
  decide

/-- Closed form of the length of an encoded string. -/
theorem encode_string_length (s : List Nat) :
    (XPCObject.encode (.string s)).length =
      17 + s.length + calculatePadding (s.length + 1) := by
  simp [XPCObject.encode, XPCObject.encodeObject, le32, List.length_append]
  omega

theorem readExact_ok {d : List Nat} {pos n : Nat} (h : pos + n ≤ d.length) :
    readExact d pos n = .ok (bytesAt d pos n, pos + n) := by
  unfold readExact
  rw [if_pos h]

theorem readExact_err {d : List Nat} {pos n : Nat} (h : d.length < pos + n) :
    readExact d pos n = .error .readFailed := by
  unfold readExact
  rw [if_neg (by omega)]

theorem readExact_ok_bounds {d : List Nat} {pos n : Nat} {b : List Nat} {p : Nat}
    (h : readExact d pos n = .ok (b, p)) :
    p = pos + n ∧ pos + n ≤ d.length ∧ b = bytesAt d pos n := by
  unfold readExact at h
  split_ifs at h with hc
  · cases h
    exact ⟨rfl, hc, rfl⟩

theorem readUntil0Bytes_length_le : ∀ l : List Nat, (readUntil0Bytes l).length ≤ l.length
  | [] => by simp [readUntil0Bytes]
  | b :: r => by
    rw [readUntil0Bytes]
    split_ifs
    · simp
    · have h := readUntil0Bytes_length_le r
      simp
      omega

theorem fromVecWithNul_ok_ne_nil {v k : List Nat} (h : fromVecWithNul v = .ok k) :
    v ≠ [] := by
  intro hv
  subst hv
  unfold fromVecWithNul at h
  simp at h

theorem readUntil0_ok_bounds {d : List Nat} {pos : Nat} {k : List Nat}
    (h : fromVecWithNul (readUntil0 d pos).1 = .ok k) :
    pos + 1 ≤ (readUntil0 d pos).2 ∧ (readUntil0 d pos).2 ≤ d.length := by
  have hne := fromVecWithNul_ok_ne_nil h
  unfold readUntil0 at hne ⊢
  simp only at hne ⊢
  have hlen := readUntil0Bytes_length_le (d.drop pos)
  have hpos : pos < d.length := by
    by_contra hc
    have : d.drop pos = [] := List.drop_eq_nil_of_le (by omega)
    rw [this] at hne
    exact hne rfl
  have h1 : 1 ≤ (readUntil0Bytes (d.drop pos)).length := by
    cases hx : readUntil0Bytes (d.drop pos) with
    | nil => exact absurd hx hne
    | cons a r => simp
  simp [List.length_drop] at hlen
  omega



theorem decodeElems_ok_bounds
    (dec : List Nat → Nat → Except XPCError (XPCObject × Nat)) (d : List Nat)
    (Hdec : ∀ pos x p, dec d pos = .ok (x, p) →
       pos + 8 ≤ p ∧ pos + 4 ≤ d.length ∧ p ≤ d.length + 3) :
    ∀ c pos l p, decodeElems dec d pos c = .ok (l, p) →
      pos + 8 * c ≤ p ∧ (0 < c → p ≤ d.length + 3) ∧ (c = 0 → p = pos) := by
  intro c
  induction c with
  | zero =>
    intro pos l p h
    rw [decodeElems] at h
    cases h
    omega
  | succ c ih =>
    intro pos l p h
    rw [decodeElems] at h
    cases hx : dec d pos with
    | error e =>
      rw [hx] at h
      simp only [bind, Except.bind] at h
      cases h
    | ok xp =>
      rw [hx] at h
      simp only [bind, Except.bind] at h
      obtain ⟨x, p2⟩ := xp
      cases hr : decodeElems dec d p2 c with
      | error e =>
        rw [hr] at h
        simp only [bind, Except.bind] at h
        cases h
      | ok rp =>
        rw [hr] at h
        simp only [bind, Except.bind] at h
        obtain ⟨rest, p3⟩ := rp
        cases h
        have h1 := Hdec pos x p2 hx
        have h2 := ih p2 rest p3 hr
        constructor
        · omega
        · constructor
          · intro hc
            rcases Nat.eq_zero_or_pos c with hc0 | hc0
            · have := h2.2.2 hc0
              omega
            · have := h2.2.1 hc0
              omega
          · intro hc
            cases hc



theorem decodeEntries_ok_bounds
    (dec : List Nat → Nat → Except XPCError (XPCObject × Nat)) (d : List Nat)
    (Hdec : ∀ pos x p, dec d pos = .ok (x, p) →
       pos + 8 ≤ p ∧ pos + 4 ≤ d.length ∧ p ≤ d.length + 3) :
    ∀ c pos l p, decodeEntries dec d pos c = .ok (l, p) →
      pos + 8 * c ≤ p ∧ (0 < c → p ≤ d.length + 3) ∧ (c = 0 → p = pos) := by
  intro c
  induction c with
  | zero =>
    intro pos l p h
    rw [decodeEntries] at h
    cases h
    omega
  | succ c ih =>
    intro pos l p h
    rw [decodeEntries] at h
    rcases hru : readUntil0 d pos with ⟨kbuf, pk⟩
    rw [hru] at h
    dsimp only at h
    cases hk : fromVecWithNul kbuf with
    | error e =>
      rw [hk] at h
      simp only [bind, Except.bind] at h
      cases h
    | ok k =>
      rw [hk] at h
      simp only [bind, Except.bind] at h
      have hkb : fromVecWithNul (readUntil0 d pos).1 = .ok k := by rw [hru]; exact hk
      have hpk := readUntil0_ok_bounds hkb
      rw [hru] at hpk
      simp only at hpk
      cases hx : dec d (pk + calculatePadding (k.length + 1)) with
      | error e =>
        rw [hx] at h
        simp only [bind, Except.bind] at h
        cases h
      | ok xp =>
        rw [hx] at h
        simp only [bind, Except.bind] at h
        obtain ⟨x, p2⟩ := xp
        cases hr : decodeEntries dec d p2 c with
        | error e =>
          rw [hr] at h
          simp only [bind, Except.bind] at h
          cases h
        | ok rp =>
          rw [hr] at h
          simp only [bind, Except.bind] at h
          obtain ⟨rest, p3⟩ := rp
          cases h
          have h1 := Hdec _ x p2 hx
          have h2 := ih p2 rest p3 hr
          refine ⟨by omega, fun hc => ?_, fun hc => by cases hc⟩
          rcases Nat.eq_zero_or_pos c with hc0 | hc0
          · have := h2.2.2 hc0
            omega
          · have := h2.2.1 hc0
            omega



theorem decodeObject_ok_bounds :
    ∀ fuel (d : List Nat) pos x p, XPCObject.decodeObject fuel d pos = .ok (x, p) →
      pos + 8 ≤ p ∧ pos + 4 ≤ d.length ∧ p ≤ d.length + 3 := by
  intro fuel
  induction fuel using Nat.strong_induction_on with
  | _ fuel ih =>
    intro d pos x p h
    rw [XPCObject.decodeObject] at h
    cases ht : readExact d pos 4 with
    | error e =>
      rw [ht] at h
      simp only [bind, Except.bind] at h
      cases h
    | ok tb =>
      rw [ht] at h
      simp only [bind, Except.bind] at h
      obtain ⟨tagB, p1⟩ := tb
      obtain ⟨hp1, hlen4, -⟩ := readExact_ok_bounds ht
      subst hp1
      dsimp only at h
      split_ifs at h with h1 h2 h3 h4 h5 h6 h7 h8
      · -- dictionary
        cases fuel with
        | zero => cases h
        | succ f =>
          cases h2 : readExact d (pos + 4) 4 with
          | error e =>
            rw [h2] at h
            simp only [bind, Except.bind] at h
            cases h
          | ok b2 =>
            rw [h2] at h
            simp only [bind, Except.bind] at h
            obtain ⟨lB, p2⟩ := b2
            obtain ⟨hp2, hlen8, -⟩ := readExact_ok_bounds h2
            subst hp2
            dsimp only at h
            cases h3 : readExact d (pos + 4 + 4) 4 with
            | error e =>
              rw [h3] at h
              simp only [bind, Except.bind] at h
              cases h
            | ok b3 =>
              rw [h3] at h
              simp only [bind, Except.bind] at h
              obtain ⟨cB, p3⟩ := b3
              obtain ⟨hp3, hlen12, -⟩ := readExact_ok_bounds h3
              subst hp3
              dsimp only at h
              cases he : decodeEntries (XPCObject.decodeObject f) d (pos + 4 + 4 + 4) (leVal cB) with
              | error e =>
                rw [he] at h
                simp only [bind, Except.bind] at h
                cases h
              | ok ep =>
                rw [he] at h
                simp only [bind, Except.bind] at h
                obtain ⟨entries, p4⟩ := ep
                dsimp only at h
                cases h
                have hb := decodeEntries_ok_bounds (XPCObject.decodeObject f) d
                  (fun pos x p hp => ih f (by omega) d pos x p hp)
                  _ _ _ _ he
                rcases Nat.eq_zero_or_pos (leVal cB) with hc0 | hc0
                · have := hb.2.2 hc0
                  omega
                · have := hb.2.1 hc0
                  omega
      · -- array
        cases fuel with
        | zero => cases h
        | succ f =>
          cases h2 : readExact d (pos + 4) 4 with
          | error e =>
            rw [h2] at h
            simp only [bind, Except.bind] at h
            cases h
          | ok b2 =>
            rw [h2] at h
            simp only [bind, Except.bind] at h
            obtain ⟨lB, p2⟩ := b2
            obtain ⟨hp2, hlen8, -⟩ := readExact_ok_bounds h2
            subst hp2
            dsimp only at h
            cases h3 : readExact d (pos + 4 + 4) 4 with
            | error e =>
              rw [h3] at h
              simp only [bind, Except.bind] at h
              cases h
            | ok b3 =>
              rw [h3] at h
              simp only [bind, Except.bind] at h
              obtain ⟨cB, p3⟩ := b3
              obtain ⟨hp3, hlen12, -⟩ := readExact_ok_bounds h3
              subst hp3
              dsimp only at h
              cases he : decodeElems (XPCObject.decodeObject f) d (pos + 4 + 4 + 4) (leVal cB) with
              | error e =>
                rw [he] at h
                simp only [bind, Except.bind] at h
                cases h
              | ok ep =>
                rw [he] at h
                simp only [bind, Except.bind] at h
                obtain ⟨elems, p4⟩ := ep
                dsimp only at h
                cases h
                have hb := decodeElems_ok_bounds (XPCObject.decodeObject f) d
                  (fun pos x p hp => ih f (by omega) d pos x p hp)
                  _ _ _ _ he
                rcases Nat.eq_zero_or_pos (leVal cB) with hc0 | hc0
                · have := hb.2.2 hc0
                  omega
                · have := hb.2.1 hc0
                  omega
      · -- int64
        cases h2 : readExact d (pos + 4) 8 with
        | error e =>
          rw [h2] at h
          simp only [bind, Except.bind] at h
          cases h
        | ok b2 =>
          rw [h2] at h
          simp only [bind, Except.bind] at h
          obtain ⟨vB, p2⟩ := b2
          obtain ⟨hp2, hlen12, -⟩ := readExact_ok_bounds h2
          subst hp2
          dsimp only at h
          cases h
          omega
      · -- uint64
        cases h2 : readExact d (pos + 4) 8 with
        | error e =>
          rw [h2] at h
          simp only [bind, Except.bind] at h
          cases h
        | ok b2 =>
          rw [h2] at h
          simp only [bind, Except.bind] at h
          obtain ⟨vB, p2⟩ := b2
          obtain ⟨hp2, hlen12, -⟩ := readExact_ok_bounds h2
          subst hp2
          dsimp only at h
          cases h
          omega
      · -- string
        cases h2 : readExact d (pos + 4) 4 with
        | error e =>
          rw [h2] at h
          simp only [bind, Except.bind] at h
          cases h
        | ok b2 =>
          rw [h2] at h
          simp only [bind, Except.bind] at h
          obtain ⟨lB, p2⟩ := b2
          obtain ⟨hp2, hlen8, -⟩ := readExact_ok_bounds h2
          subst hp2
          dsimp only at h
          cases h3 : readExact d (pos + 4 + 4) (leVal lB) with
          | error e =>
            rw [h3] at h
            simp only [bind, Except.bind] at h
            cases h
          | ok b3 =>
            rw [h3] at h
            simp only [bind, Except.bind] at h
            obtain ⟨sB, p3⟩ := b3
            obtain ⟨hp3, hlenl, -⟩ := readExact_ok_bounds h3
            subst hp3
            dsimp only at h
            cases hv : fromVecWithNul sB with
            | error e =>
              rw [hv] at h
              simp only [bind, Except.bind] at h
              cases h
            | ok s =>
              rw [hv] at h
              simp only [bind, Except.bind] at h
              cases h
              have hpad := calculatePadding_le3 (leVal lB)
              omega
      · -- bool
        cases h2 : readExact d (pos + 4) 4 with
        | error e =>
          rw [h2] at h
          simp only [bind, Except.bind] at h
          cases h
        | ok b2 =>
          rw [h2] at h
          simp only [bind, Except.bind] at h
          obtain ⟨vB, p2⟩ := b2
          obtain ⟨hp2, hlen8, -⟩ := readExact_ok_bounds h2
          subst hp2
          dsimp only at h
          cases h
          omega
      · -- data
        cases h2 : readExact d (pos + 4) 4 with
        | error e =>
          rw [h2] at h
          simp only [bind, Except.bind] at h
          cases h
        | ok b2 =>
          rw [h2] at h
          simp only [bind, Except.bind] at h
          obtain ⟨lB, p2⟩ := b2
          obtain ⟨hp2, hlen8, -⟩ := readExact_ok_bounds h2
          subst hp2
          dsimp only at h
          cases h3 : readExact d (pos + 4 + 4) (leVal lB) with
          | error e =>
            rw [h3] at h
            simp only [bind, Except.bind] at h
            cases h
          | ok b3 =>
            rw [h3] at h
            simp only [bind, Except.bind] at h
            obtain ⟨sB, p3⟩ := b3
            obtain ⟨hp3, hlenl, -⟩ := readExact_ok_bounds h3
            subst hp3
            dsimp only at h
            cases h
            have hpad := calculatePadding_le3 (leVal lB)
            omega
      · -- uuid
        cases h2 : readExact d (pos + 4) 16 with
        | error e =>
          rw [h2] at h
          simp only [bind, Except.bind] at h
          cases h
        | ok b2 =>
          rw [h2] at h
          simp only [bind, Except.bind] at h
          obtain ⟨vB, p2⟩ := b2
          obtain ⟨hp2, hlen20, -⟩ := readExact_ok_bounds h2
          subst hp2
          dsimp only at h
          cases h
          omega



theorem fromVecWithNul_ne_noFuel (v : List Nat) :
    fromVecWithNul v ≠ .error .noFuel := by
  unfold fromVecWithNul
  split_ifs <;> simp

theorem decodeElems_ne_noFuel
    (dec : List Nat → Nat → Except XPCError (XPCObject × Nat)) (d : List Nat)
    (F : Nat)
    (Hmono : ∀ pos x p, dec d pos = .ok (x, p) → pos ≤ p)
    (Hnf : ∀ pos, d.length + 1 ≤ F + pos → dec d pos ≠ .error .noFuel) :
    ∀ c pos, d.length + 1 ≤ F + pos →
      decodeElems dec d pos c ≠ .error .noFuel := by
  intro c
  induction c with
  | zero =>
    intro pos hb heq
    rw [decodeElems] at heq
    cases heq
  | succ c ih =>
    intro pos hb heq
    rw [decodeElems] at heq
    cases hx : dec d pos with
    | error e =>
      rw [hx] at heq
      simp only [bind, Except.bind] at heq
      cases heq
      exact Hnf pos hb hx
    | ok xp =>
      rw [hx] at heq
      simp only [bind, Except.bind] at heq
      obtain ⟨x, p2⟩ := xp
      dsimp only at heq
      cases hr : decodeElems dec d p2 c with
      | error e =>
        rw [hr] at heq
        simp only [bind, Except.bind] at heq
        cases heq
        have hm := Hmono pos x p2 hx
        exact ih p2 (by omega) hr
      | ok rp =>
        rw [hr] at heq
        simp only [bind, Except.bind] at heq
        obtain ⟨rest, p3⟩ := rp
        dsimp only at heq
        cases heq

theorem decodeEntries_ne_noFuel
    (dec : List Nat → Nat → Except XPCError (XPCObject × Nat)) (d : List Nat)
    (F : Nat)
    (Hmono : ∀ pos x p, dec d pos = .ok (x, p) → pos ≤ p)
    (Hnf : ∀ pos, d.length + 1 ≤ F + pos → dec d pos ≠ .error .noFuel) :
    ∀ c pos, d.length + 1 ≤ F + pos →
      decodeEntries dec d pos c ≠ .error .noFuel := by
  intro c
  induction c with
  | zero =>
    intro pos hb heq
    rw [decodeEntries] at heq
    cases heq
  | succ c ih =>
    intro pos hb heq
    rw [decodeEntries] at heq
    rcases hru : readUntil0 d pos with ⟨kbuf, pk⟩
    rw [hru] at heq
    dsimp only at heq
    have hpk : pos ≤ pk := by
      have : pk = pos + (readUntil0Bytes (d.drop pos)).length := by
        have := congrArg Prod.snd hru
        simpa [readUntil0] using this.symm
      omega
    cases hk : fromVecWithNul kbuf with
    | error e =>
      rw [hk] at heq
      simp only [bind, Except.bind] at heq
      cases heq
      exact fromVecWithNul_ne_noFuel kbuf hk
    | ok k =>
      rw [hk] at heq
      simp only [bind, Except.bind] at heq
      cases hx : dec d (pk + calculatePadding (k.length + 1)) with
      | error e =>
        rw [hx] at heq
        simp only [bind, Except.bind] at heq
        cases heq
        exact Hnf _ (by omega) hx
      | ok xp =>
        rw [hx] at heq
        simp only [bind, Except.bind] at heq
        obtain ⟨x, p2⟩ := xp
        dsimp only at heq
        cases hr : decodeEntries dec d p2 c with
        | error e =>
          rw [hr] at heq
          simp only [bind, Except.bind] at heq
          cases heq
          have hm := Hmono _ x p2 hx
          exact ih p2 (by omega) hr
        | ok rp =>
          rw [hr] at heq
          simp only [bind, Except.bind] at heq
          obtain ⟨rest, p3⟩ := rp
          dsimp only at heq
          cases heq



theorem readExact_ne_noFuel (d : List Nat) (pos n : Nat) :
    readExact d pos n ≠ .error .noFuel := by
  unfold readExact
  split_ifs <;> simp

theorem decodeObject_ne_noFuel :
    ∀ fuel (d : List Nat) pos, d.length + 1 ≤ fuel + pos →
      XPCObject.decodeObject fuel d pos ≠ .error .noFuel := by
  intro fuel
  induction fuel using Nat.strong_induction_on with
  | _ fuel ih =>
    intro d pos hb heq
    rw [XPCObject.decodeObject] at heq
    cases ht : readExact d pos 4 with
    | error e =>
      rw [ht] at heq
      simp only [bind, Except.bind] at heq
      cases heq
      exact readExact_ne_noFuel _ _ _ ht
    | ok tb =>
      rw [ht] at heq
      simp only [bind, Except.bind] at heq
      obtain ⟨tagB, p1⟩ := tb
      obtain ⟨hp1, hlen4, -⟩ := readExact_ok_bounds ht
      subst hp1
      dsimp only at heq
      split_ifs at heq
      · -- dictionary
        cases fuel with
        | zero => omega
        | succ f =>
          cases h2 : readExact d (pos + 4) 4 with
          | error e =>
            rw [h2] at heq
            simp only [bind, Except.bind] at heq
            cases heq
            exact readExact_ne_noFuel _ _ _ h2
          | ok b2 =>
            rw [h2] at heq
            simp only [bind, Except.bind] at heq
            obtain ⟨lB, p2⟩ := b2
            obtain ⟨hp2, hlen8, -⟩ := readExact_ok_bounds h2
            subst hp2
            dsimp only at heq
            cases h3 : readExact d (pos + 4 + 4) 4 with
            | error e =>
              rw [h3] at heq
              simp only [bind, Except.bind] at heq
              cases heq
              exact readExact_ne_noFuel _ _ _ h3
            | ok b3 =>
              rw [h3] at heq
              simp only [bind, Except.bind] at heq
              obtain ⟨cB, p3⟩ := b3
              obtain ⟨hp3, hlen12, -⟩ := readExact_ok_bounds h3
              subst hp3
              dsimp only at heq
              cases he : decodeEntries (XPCObject.decodeObject f) d (pos + 4 + 4 + 4) (leVal cB) with
              | error e =>
                rw [he] at heq
                simp only [bind, Except.bind] at heq
                cases heq
                refine decodeEntries_ne_noFuel (XPCObject.decodeObject f) d f
                  (fun pos x p hp => by
                    have := decodeObject_ok_bounds f d pos x p hp
                    omega)
                  (fun pos hbp => ih f (by omega) d pos hbp)
                  (leVal cB) (pos + 4 + 4 + 4) (by omega) he
              | ok ep =>
                rw [he] at heq
                simp only [bind, Except.bind] at heq
                obtain ⟨entries, p4⟩ := ep
                dsimp only at heq
                cases heq
      · -- array
        cases fuel with
        | zero => omega
        | succ f =>
          cases h2 : readExact d (pos + 4) 4 with
          | error e =>
            rw [h2] at heq
            simp only [bind, Except.bind] at heq
            cases heq
            exact readExact_ne_noFuel _ _ _ h2
          | ok b2 =>
            rw [h2] at heq
            simp only [bind, Except.bind] at heq
            obtain ⟨lB, p2⟩ := b2
            obtain ⟨hp2, hlen8, -⟩ := readExact_ok_bounds h2
            subst hp2
            dsimp only at heq
            cases h3 : readExact d (pos + 4 + 4) 4 with
            | error e =>
              rw [h3] at heq
              simp only [bind, Except.bind] at heq
              cases heq
              exact readExact_ne_noFuel _ _ _ h3
            | ok b3 =>
              rw [h3] at heq
              simp only [bind, Except.bind] at heq
              obtain ⟨cB, p3⟩ := b3
              obtain ⟨hp3, hlen12, -⟩ := readExact_ok_bounds h3
              subst hp3
              dsimp only at heq
              cases he : decodeElems (XPCObject.decodeObject f) d (pos + 4 + 4 + 4) (leVal cB) with
              | error e =>
                rw [he] at heq
                simp only [bind, Except.bind] at heq
                cases heq
                refine decodeElems_ne_noFuel (XPCObject.decodeObject f) d f
                  (fun pos x p hp => by
                    have := decodeObject_ok_bounds f d pos x p hp
                    omega)
                  (fun pos hbp => ih f (by omega) d pos hbp)
                  (leVal cB) (pos + 4 + 4 + 4) (by omega) he
              | ok ep =>
                rw [he] at heq
                simp only [bind, Except.bind] at heq
                obtain ⟨elems, p4⟩ := ep
                dsimp only at heq
                cases heq
      · -- int64
        cases h2 : readExact d (pos + 4) 8 with
        | error e =>
          rw [h2] at heq
          simp only [bind, Except.bind] at heq
          cases heq
          exact readExact_ne_noFuel _ _ _ h2
        | ok b2 =>
          rw [h2] at heq
          simp only [bind, Except.bind] at heq
          obtain ⟨vB, p2⟩ := b2
          dsimp only at heq
          cases heq
      · -- uint64
        cases h2 : readExact d (pos + 4) 8 with
        | error e =>
          rw [h2] at heq
          simp only [bind, Except.bind] at heq
          cases heq
          exact readExact_ne_noFuel _ _ _ h2
        | ok b2 =>
          rw [h2] at heq
          simp only [bind, Except.bind] at heq
          obtain ⟨vB, p2⟩ := b2
          dsimp only at heq
          cases heq
      · -- string
        cases h2 : readExact d (pos + 4) 4 with
        | error e =>
          rw [h2] at heq
          simp only [bind, Except.bind] at heq
          cases heq
          exact readExact_ne_noFuel _ _ _ h2
        | ok b2 =>
          rw [h2] at heq
          simp only [bind, Except.bind] at heq
          obtain ⟨lB, p2⟩ := b2
          dsimp only at heq
          cases h3 : readExact d p2 (leVal lB) with
          | error e =>
            rw [h3] at heq
            simp only [bind, Except.bind] at heq
            cases heq
            exact readExact_ne_noFuel _ _ _ h3
          | ok b3 =>
            rw [h3] at heq
            simp only [bind, Except.bind] at heq
            obtain ⟨sB, p3⟩ := b3
            dsimp only at heq
            cases hv : fromVecWithNul sB with
            | error e =>
              rw [hv] at heq
              simp only [bind, Except.bind] at heq
              cases heq
              exact fromVecWithNul_ne_noFuel sB hv
            | ok s =>
              rw [hv] at heq
              simp only [bind, Except.bind] at heq
              cases heq
      · -- bool
        cases h2 : readExact d (pos + 4) 4 with
        | error e =>
          rw [h2] at heq
          simp only [bind, Except.bind] at heq
          cases heq
          exact readExact_ne_noFuel _ _ _ h2
        | ok b2 =>
          rw [h2] at heq
          simp only [bind, Except.bind] at heq
          obtain ⟨vB, p2⟩ := b2
          dsimp only at heq
          cases heq
      · -- data
        cases h2 : readExact d (pos + 4) 4 with
        | error e =>
          rw [h2] at heq
          simp only [bind, Except.bind] at heq
          cases heq
          exact readExact_ne_noFuel _ _ _ h2
        | ok b2 =>
          rw [h2] at heq
          simp only [bind, Except.bind] at heq
          obtain ⟨lB, p2⟩ := b2
          dsimp only at heq
          cases h3 : readExact d p2 (leVal lB) with
          | error e =>
            rw [h3] at heq
            simp only [bind, Except.bind] at heq
            cases heq
            exact readExact_ne_noFuel _ _ _ h3
          | ok b3 =>
            rw [h3] at heq
            simp only [bind, Except.bind] at heq
            obtain ⟨sB, p3⟩ := b3
            dsimp only at heq
            cases heq
      · -- uuid
        cases h2 : readExact d (pos + 4) 16 with
        | error e =>
          rw [h2] at heq
          simp only [bind, Except.bind] at heq
          cases heq
          exact readExact_ne_noFuel _ _ _ h2
        | ok b2 =>
          rw [h2] at heq
          simp only [bind, Except.bind] at heq
          obtain ⟨vB, p2⟩ := b2
          dsimp only at heq
          cases heq
      · cases heq

theorem le32_length (v : Nat) : (le32 v).length = 4 := rfl

theorem le64_length (v : Nat) : (le64 v).length = 8 := rfl

theorem leVal_le32 (v : Nat) : leVal (le32 v) = v % 2 ^ 32 := by
  simp [leVal, le32]
  omega

theorem leVal_le64 (v : Nat) : leVal (le64 v) = v % 2 ^ 64 := by
  simp [leVal, le64]
  omega

theorem leVal_le32_small {v : Nat} (h : v < 2 ^ 32) : leVal (le32 v) = v := by
  rw [leVal_le32, Nat.mod_eq_of_lt h]

theorem leVal_le64_small {v : Nat} (h : v < 2 ^ 64) : leVal (le64 v) = v := by
  rw [leVal_le64, Nat.mod_eq_of_lt h]

theorem leVal_le64i {n : Int} (h1 : -(2 ^ 63 : Int) ≤ n) (h2 : n < 2 ^ 63) :
    (if leVal (le64i n) < 2 ^ 63 then (leVal (le64i n) : Int)
     else (leVal (le64i n) : Int) - 2 ^ 64) = n := by
  have hm : (0 : Int) ≤ n % 2 ^ 64 := Int.emod_nonneg n (by norm_num)
  have hm2 : n % 2 ^ 64 < 2 ^ 64 := Int.emod_lt_of_pos n (by norm_num)
  have htn : ((n % 2 ^ 64).toNat : Int) = n % 2 ^ 64 := Int.toNat_of_nonneg hm
  have hsz : (n % 2 ^ 64).toNat < 2 ^ 64 := by omega
  rw [le64i, leVal_le64_small hsz]
  have hcase : n % 2 ^ 64 = n ∨ n % 2 ^ 64 = n + 2 ^ 64 := by omega
  rcases hcase with hc | hc
  · rw [if_pos (by omega)]
    omega
  · rw [if_neg (by omega)]
    omega

theorem fromVecWithNul_concat {s : List Nat} (h0 : ¬ s.contains 0)
    (hu : isUtf8 s = true) : fromVecWithNul (s ++ [0]) = .ok s := by
  unfold fromVecWithNul
  rw [List.getLast?_concat, List.dropLast_concat, if_pos rfl]
  rw [if_neg (by simpa using h0), if_pos hu]

theorem readUntil0Bytes_concat {s : List Nat} (h0 : ¬ s.contains 0) (t : List Nat) :
    readUntil0Bytes (s ++ 0 :: t) = s ++ [0] := by
  induction s with
  | nil => simp [readUntil0Bytes]
  | cons a r ih =>
    have ha : a ≠ 0 := by
      intro hc
      subst hc
      simp [List.contains] at h0
    rw [List.cons_append, readUntil0Bytes, if_neg ha]
    rw [ih (by simp [List.contains] at h0 ⊢; tauto)]
    simp

theorem readUntil0_at (pre : List Nat) {s : List Nat} (tail : List Nat)
    (h0 : ¬ s.contains 0) :
    readUntil0 (pre ++ (s ++ [0] ++ tail)) pre.length =
      (s ++ [0], pre.length + s.length + 1) := by
  unfold readUntil0
  rw [List.drop_left]
  have : s ++ [0] ++ tail = s ++ 0 :: tail := by simp
  rw [this, readUntil0Bytes_concat h0]
  simp
  omega

theorem readChunk (pre chunk tail : List Nat) :
    readExact (pre ++ (chunk ++ tail)) pre.length chunk.length =
      .ok (chunk, pre.length + chunk.length) := by
  rw [readExact_ok (by simp)]
  congr 1
  unfold bytesAt
  rw [List.drop_left, List.take_left]

theorem read4At {pre tail : List Nat} (v : Nat) {pos : Nat} (h : pos = pre.length) :
    readExact (pre ++ (le32 v ++ tail)) pos 4 = .ok (le32 v, pos + 4) := by
  subst h
  have h2 := readChunk pre (le32 v) tail
  rwa [le32_length] at h2

theorem read8At {pre tail : List Nat} (v : Nat) {pos : Nat} (h : pos = pre.length) :
    readExact (pre ++ (le64 v ++ tail)) pos 8 = .ok (le64 v, pos + 8) := by
  subst h
  have h2 := readChunk pre (le64 v) tail
  rwa [le64_length] at h2

theorem readNAt {pre chunk tail : List Nat} {pos n : Nat} (h : pos = pre.length)
    (hn : n = chunk.length) :
    readExact (pre ++ (chunk ++ tail)) pos n = .ok (chunk, pos + n) := by
  subst h
  subst hn
  exact readChunk pre chunk tail

open XPCFormat

theorem negBoolsEntries_fst : ∀ l : List (List Nat × XPCObject),
    (negBoolsEntries l).map Prod.fst = l.map Prod.fst
  | [] => rfl
  | (k, v) :: r => by
    rw [negBoolsEntries]
    simp [negBoolsEntries_fst r]

theorem foldl_insert_eq_append :
    ∀ (l acc : List (List Nat × XPCObject)),
      (acc.map Prod.fst ++ l.map Prod.fst).Nodup →
      l.foldl (fun m kv => indexMapInsert m kv.1 kv.2) acc = acc ++ l
  | [], acc, _ => by simp
  | (k, v) :: r, acc, h => by
    have hk : ∀ kv ∈ acc, ¬ (kv.1 == k) = true := by
      intro kv hkv
      simp only [beq_iff_eq]
      intro hkk
      have h1 : kv.1 ∈ acc.map Prod.fst := List.mem_map_of_mem Prod.fst hkv
      rw [hkk] at h1
      have h2 : k ∈ ((k, v) :: r).map Prod.fst := by simp
      rw [List.nodup_append] at h
      exact h.2.2 h1 h2
    have hins : indexMapInsert acc k v = acc ++ [(k, v)] := by
      unfold indexMapInsert
      rw [if_neg]
      simp only [List.any_eq_true, not_exists]
      intro kv hkv
      exact hk kv hkv.1 hkv.2
    simp only [List.foldl_cons, hins]
    rw [foldl_insert_eq_append r (acc ++ [(k, v)]) (by
      simp only [List.map_append, List.map_cons] at h ⊢
      simp only [List.append_assoc]
      simpa using h)]
    simp

theorem foldInsert_eq_self {l : List (List Nat × XPCObject)}
    (h : (l.map Prod.fst).Nodup) : foldInsert l = l := by
  unfold foldInsert
  rw [foldl_insert_eq_append l [] (by simpa using h)]
  simp

mutual

theorem decode_encodeObject :
    ∀ (x : XPCObject), rtOk x = true →
      ∀ (fuel : Nat) (pre post : List Nat), height x < fuel →
      XPCObject.decodeObject fuel (pre ++ (XPCObject.encodeObject x ++ post)) pre.length
        = .ok (negBools x, pre.length + (XPCObject.encodeObject x).length)
  | .bool b, _, fuel, pre, post, _ => by
    have hB : XPCObject.encodeObject (.bool b) ++ post =
        le32 0x2000 ++ (((if b then 0 else 1) :: [0, 0, 0]) ++ post) := by
      simp [XPCObject.encodeObject, List.replicate]
    rw [XPCObject.decodeObject, hB]
    rw [read4At _ rfl]
    simp only [bind, Except.bind]
    rw [leVal_le32_small (by norm_num)]
    rw [if_neg (by decide), if_neg (by decide), if_neg (by decide), if_neg (by decide),
      if_neg (by decide), if_pos rfl]
    have hB2 : pre ++ (le32 0x2000 ++ (((if b then 0 else 1) :: [0, 0, 0]) ++ post)) =
        (pre ++ le32 0x2000) ++ (((if b then 0 else 1) :: [0, 0, 0]) ++ post) := by
      simp [List.append_assoc]
    have h4 : (4 : Nat) = ((if b then 0 else 1) :: [0, 0, 0] : List Nat).length := by simp
    rw [hB2, readNAt (by simp [le32_length]) h4]
    simp only [bind, Except.bind]
    cases b <;> simp [negBools, XPCObject.encodeObject, le32, List.replicate]
  | .int64 n, h, fuel, pre, post, _ => by
    have hr : -(2 ^ 63 : Int) ≤ n ∧ n < 2 ^ 63 := by simpa [rtOk] using h
    have hB : XPCObject.encodeObject (.int64 n) ++ post = le32 0x3000 ++ (le64i n ++ post) := by
      simp [XPCObject.encodeObject]
    rw [XPCObject.decodeObject, hB]
    rw [read4At _ rfl]
    simp only [bind, Except.bind]
    rw [leVal_le32_small (by norm_num)]
    rw [if_neg (by decide), if_neg (by decide), if_pos rfl]
    have hB2 : pre ++ (le32 0x3000 ++ (le64i n ++ post)) =
        (pre ++ le32 0x3000) ++ (le64i n ++ post) := by
      simp [List.append_assoc]
    have h8 : (8 : Nat) = (le64i n).length := by simp [le64i, le64_length]
    rw [hB2, readNAt (by simp [le32_length]) h8]
    simp only [bind, Except.bind]
    rw [leVal_le64i hr.1 hr.2]
    simp [negBools, XPCObject.encodeObject, le32, le64i, le64]
  | .uint64 n, h, fuel, pre, post, _ => by
    have hn : n < 2 ^ 64 := by simpa [rtOk] using h
    have hB : XPCObject.encodeObject (.uint64 n) ++ post = le32 0x4000 ++ (le64 n ++ post) := by
      simp [XPCObject.encodeObject]
    rw [XPCObject.decodeObject, hB]
    rw [read4At _ rfl]
    simp only [bind, Except.bind]
    rw [leVal_le32_small (by norm_num)]
    rw [if_neg (by decide), if_neg (by decide), if_neg (by decide), if_pos rfl]
    have hB2 : pre ++ (le32 0x4000 ++ (le64 n ++ post)) =
        (pre ++ le32 0x4000) ++ (le64 n ++ post) := by
      simp [List.append_assoc]
    rw [hB2, read8At _ (by simp [le32_length])]
    simp only [bind, Except.bind]
    rw [leVal_le64_small hn]
    simp [negBools, XPCObject.encodeObject, le32, le64]
  | .string s, h, fuel, pre, post, _ => by
    have hr : (¬ s.contains 0 ∧ isUtf8 s = true) ∧ s.length + 1 < 2 ^ 32 := by
      simpa [rtOk, and_assoc] using h
    obtain ⟨⟨h0, hu⟩, hlen⟩ := hr
    have hB : XPCObject.encodeObject (.string s) ++ post =
        le32 0x9000 ++ (le32 (s.length + 1) ++ ((s ++ [0]) ++
          (List.replicate (calculatePadding (s.length + 1)) 0 ++ post))) := by
      simp [XPCObject.encodeObject]
    rw [XPCObject.decodeObject, hB]
    rw [read4At _ rfl]
    simp only [bind, Except.bind]
    rw [leVal_le32_small (by norm_num)]
    rw [if_neg (by decide), if_neg (by decide), if_neg (by decide), if_neg (by decide),
      if_pos rfl]
    have hB2 : pre ++ (le32 0x9000 ++ (le32 (s.length + 1) ++ ((s ++ [0]) ++
          (List.replicate (calculatePadding (s.length + 1)) 0 ++ post)))) =
        (pre ++ le32 0x9000) ++ (le32 (s.length + 1) ++ ((s ++ [0]) ++
          (List.replicate (calculatePadding (s.length + 1)) 0 ++ post))) := by
      simp [List.append_assoc]
    rw [hB2, read4At _ (by simp [le32_length])]
    simp only [bind, Except.bind]
    rw [leVal_le32_small hlen]
    have hB3 : (pre ++ le32 0x9000) ++ (le32 (s.length + 1) ++ ((s ++ [0]) ++
          (List.replicate (calculatePadding (s.length + 1)) 0 ++ post))) =
        ((pre ++ le32 0x9000) ++ le32 (s.length + 1)) ++ ((s ++ [0]) ++
          (List.replicate (calculatePadding (s.length + 1)) 0 ++ post)) := by
      simp [List.append_assoc]
    have hsl : s.length + 1 = (s ++ [0]).length := by simp
    rw [hB3, readNAt (by simp [le32_length]) hsl]
    simp only [bind, Except.bind]
    rw [fromVecWithNul_concat h0 hu]
    simp only [bind, Except.bind]
    simp [negBools, XPCObject.encodeObject, le32, List.length_append]
    omega
  | .data u, h, fuel, pre, post, _ => by
    have hlen : u.length < 2 ^ 32 := by simpa [rtOk] using h
    have hB : XPCObject.encodeObject (.data u) ++ post =
        le32 0x8000 ++ (le32 u.length ++ (u ++
          (List.replicate (calculatePadding u.length) 0 ++ post))) := by
      simp [XPCObject.encodeObject]
    rw [XPCObject.decodeObject, hB]
    rw [read4At _ rfl]
    simp only [bind, Except.bind]
    rw [leVal_le32_small (by norm_num)]
    rw [if_neg (by decide), if_neg (by decide), if_neg (by decide), if_neg (by decide),
      if_neg (by decide), if_neg (by decide), if_pos rfl]
    have hB2 : pre ++ (le32 0x8000 ++ (le32 u.length ++ (u ++
          (List.replicate (calculatePadding u.length) 0 ++ post)))) =
        (pre ++ le32 0x8000) ++ (le32 u.length ++ (u ++
          (List.replicate (calculatePadding u.length) 0 ++ post))) := by
      simp [List.append_assoc]
    rw [hB2, read4At _ (by simp [le32_length])]
    simp only [bind, Except.bind]
    rw [leVal_le32_small hlen]
    have hB3 : (pre ++ le32 0x8000) ++ (le32 u.length ++ (u ++
          (List.replicate (calculatePadding u.length) 0 ++ post))) =
        ((pre ++ le32 0x8000) ++ le32 u.length) ++ (u ++
          (List.replicate (calculatePadding u.length) 0 ++ post)) := by
      simp [List.append_assoc]
    rw [hB3, readNAt (by simp [le32_length]) rfl]
    simp only [bind, Except.bind]
    simp [negBools, XPCObject.encodeObject, le32, List.length_append]
    omega
  | .uuid u, h, fuel, pre, post, _ => by
    simp [rtOk] at h
  | .dictionary d, h, fuel, pre, post, hh => by
    have hr : (d.length < 2 ^ 32 ∧ (d.map Prod.fst).Nodup) ∧ rtOkEntries d = true := by
      simpa [rtOk, and_assoc] using h
    obtain ⟨⟨hlen, hnd⟩, hent⟩ := hr
    cases fuel with
    | zero => simp [height] at hh
    | succ f =>
      have hhe : heightEntries d < f := by
        simp [height] at hh
        omega
      have hB : XPCObject.encodeObject (.dictionary d) ++ post =
          le32 0xf000 ++ (le32 0 ++ (le32 d.length ++
            (XPCObject.encodeEntries d ++ post))) := by
        simp [XPCObject.encodeObject]
      rw [XPCObject.decodeObject, hB]
      rw [read4At _ rfl]
      simp only [bind, Except.bind]
      rw [leVal_le32_small (by norm_num)]
      rw [if_pos rfl]
      have hB2 : pre ++ (le32 0xf000 ++ (le32 0 ++ (le32 d.length ++
            (XPCObject.encodeEntries d ++ post)))) =
          (pre ++ le32 0xf000) ++ (le32 0 ++ (le32 d.length ++
            (XPCObject.encodeEntries d ++ post))) := by
        simp [List.append_assoc]
      rw [hB2, read4At _ (by simp [le32_length])]
      simp only [bind, Except.bind]
      have hB3 : (pre ++ le32 0xf000) ++ (le32 0 ++ (le32 d.length ++
            (XPCObject.encodeEntries d ++ post))) =
          ((pre ++ le32 0xf000) ++ le32 0) ++ (le32 d.length ++
            (XPCObject.encodeEntries d ++ post)) := by
        simp [List.append_assoc]
      rw [hB3, read4At _ (by simp [le32_length])]
      simp only [bind, Except.bind]
      rw [leVal_le32_small hlen]
      have hB4 : ((pre ++ le32 0xf000) ++ le32 0) ++ (le32 d.length ++
            (XPCObject.encodeEntries d ++ post)) =
          (((pre ++ le32 0xf000) ++ le32 0) ++ le32 d.length) ++
            (XPCObject.encodeEntries d ++ post) := by
        simp [List.append_assoc]
      have hpos : pre.length + 4 + 4 + 4 =
          ((((pre ++ le32 0xf000) ++ le32 0) ++ le32 d.length) : List Nat).length := by
        simp [le32_length, List.length_append]
      rw [hB4, hpos, decode_encodeEntries d hent f _ post hhe]
      simp only [bind, Except.bind]
      rw [foldInsert_eq_self (by rw [negBoolsEntries_fst]; exact hnd)]
      simp [negBools, XPCObject.encodeObject, le32, List.length_append]
      omega
  | .array l, h, fuel, pre, post, hh => by
    have hr : l.length < 2 ^ 32 ∧ rtOkElems l = true := by
      simpa [rtOk] using h
    obtain ⟨hlen, helems⟩ := hr
    cases fuel with
    | zero => simp [height] at hh
    | succ f =>
      have hhe : heightElems l < f := by
        simp [height] at hh
        omega
      have hB : XPCObject.encodeObject (.array l) ++ post =
          le32 0xe000 ++ (le32 0 ++ (le32 l.length ++
            (XPCObject.encodeElems l ++ post))) := by
        simp [XPCObject.encodeObject]
      rw [XPCObject.decodeObject, hB]
      rw [read4At _ rfl]
      simp only [bind, Except.bind]
      rw [leVal_le32_small (by norm_num)]
      rw [if_neg (by decide), if_pos rfl]
      have hB2 : pre ++ (le32 0xe000 ++ (le32 0 ++ (le32 l.length ++
            (XPCObject.encodeElems l ++ post)))) =
          (pre ++ le32 0xe000) ++ (le32 0 ++ (le32 l.length ++
            (XPCObject.encodeElems l ++ post))) := by
        simp [List.append_assoc]
      rw [hB2, read4At _ (by simp [le32_length])]
      simp only [bind, Except.bind]
      have hB3 : (pre ++ le32 0xe000) ++ (le32 0 ++ (le32 l.length ++
            (XPCObject.encodeElems l ++ post))) =
          ((pre ++ le32 0xe000) ++ le32 0) ++ (le32 l.length ++
            (XPCObject.encodeElems l ++ post)) := by
        simp [List.append_assoc]
      rw [hB3, read4At _ (by simp [le32_length])]
      simp only [bind, Except.bind]
      rw [leVal_le32_small hlen]
      have hB4 : ((pre ++ le32 0xe000) ++ le32 0) ++ (le32 l.length ++
            (XPCObject.encodeElems l ++ post)) =
          (((pre ++ le32 0xe000) ++ le32 0) ++ le32 l.length) ++
            (XPCObject.encodeElems l ++ post) := by
        simp [List.append_assoc]
      have hpos : pre.length + 4 + 4 + 4 =
          ((((pre ++ le32 0xe000) ++ le32 0) ++ le32 l.length) : List Nat).length := by
        simp [le32_length, List.length_append]
      rw [hB4, hpos, decode_encodeElems l helems f _ post hhe]
      simp only [bind, Except.bind]
      simp [negBools, XPCObject.encodeObject, le32, List.length_append]
      omega

theorem decode_encodeEntries :
    ∀ (l : List (List Nat × XPCObject)), rtOkEntries l = true →
      ∀ (f : Nat) (pre post : List Nat), heightEntries l < f →
      decodeEntries (XPCObject.decodeObject f)
          (pre ++ (XPCObject.encodeEntries l ++ post)) pre.length l.length
        = .ok (negBoolsEntries l, pre.length + (XPCObject.encodeEntries l).length)
  | [], _, f, pre, post, _ => by
    simp [decodeEntries, XPCObject.encodeEntries, negBoolsEntries]
  | (k, v) :: r, h, f, pre, post, hh => by
    have hr : (((¬ k.contains 0 ∧ isUtf8 k = true) ∧ k.length + 1 < 2 ^ 32) ∧
        rtOk v = true) ∧ rtOkEntries r = true := by
      simpa [rtOkEntries, and_assoc] using h
    obtain ⟨⟨⟨⟨h0, hu⟩, hklen⟩, hv⟩, hrest⟩ := hr
    have hhv : height v < f := by
      simp [heightEntries] at hh
      omega
    have hhr : heightEntries r < f := by
      simp [heightEntries] at hh
      omega
    simp only [List.length_cons]
    rw [decodeEntries]
    have hB : XPCObject.encodeEntries ((k, v) :: r) ++ post =
        k ++ [0] ++ (List.replicate (calculatePadding (k.length + 1)) 0 ++
          (XPCObject.encodeObject v ++ (XPCObject.encodeEntries r ++ post))) := by
      simp [XPCObject.encodeEntries, List.append_assoc]
    rw [hB]
    rw [readUntil0_at pre _ h0]
    simp only
    rw [fromVecWithNul_concat h0 hu]
    simp only [bind, Except.bind]
    have hB2 : pre ++ (k ++ [0] ++ (List.replicate (calculatePadding (k.length + 1)) 0 ++
          (XPCObject.encodeObject v ++ (XPCObject.encodeEntries r ++ post)))) =
        ((pre ++ k ++ [0]) ++ List.replicate (calculatePadding (k.length + 1)) 0) ++
          (XPCObject.encodeObject v ++ (XPCObject.encodeEntries r ++ post)) := by
      simp [List.append_assoc]
    have hpos : pre.length + k.length + 1 + calculatePadding (k.length + 1) =
        (((pre ++ k ++ [0]) ++
          List.replicate (calculatePadding (k.length + 1)) 0) : List Nat).length := by
      simp [List.length_append, List.length_replicate]
      omega
    rw [hB2, hpos, decode_encodeObject v hv f _ _ hhv]
    simp only [bind, Except.bind]
    have hB3 : ((pre ++ k ++ [0]) ++ List.replicate (calculatePadding (k.length + 1)) 0) ++
          (XPCObject.encodeObject v ++ (XPCObject.encodeEntries r ++ post)) =
        (((pre ++ k ++ [0]) ++ List.replicate (calculatePadding (k.length + 1)) 0) ++
          XPCObject.encodeObject v) ++ (XPCObject.encodeEntries r ++ post) := by
      simp [List.append_assoc]
    have hpos2 : (((pre ++ k ++ [0]) ++
          List.replicate (calculatePadding (k.length + 1)) 0) : List Nat).length +
          (XPCObject.encodeObject v).length =
        ((((pre ++ k ++ [0]) ++ List.replicate (calculatePadding (k.length + 1)) 0) ++
          XPCObject.encodeObject v) : List Nat).length := by
      simp [List.length_append]
      omega
    rw [hB3, hpos2, decode_encodeEntries r hrest f _ post hhr]
    simp only [bind, Except.bind]
    simp [negBoolsEntries, XPCObject.encodeEntries, List.length_append,
      List.length_replicate]
    omega

theorem decode_encodeElems :
    ∀ (l : List XPCObject), rtOkElems l = true →
      ∀ (f : Nat) (pre post : List Nat), heightElems l < f →
      decodeElems (XPCObject.decodeObject f)
          (pre ++ (XPCObject.encodeElems l ++ post)) pre.length l.length
        = .ok (negBoolsElems l, pre.length + (XPCObject.encodeElems l).length)
  | [], _, f, pre, post, _ => by
    simp [decodeElems, XPCObject.encodeElems, negBoolsElems]
  | x :: r, h, f, pre, post, hh => by
    have hr : rtOk x = true ∧ rtOkElems r = true := by
      simpa [rtOkElems] using h
    obtain ⟨hx, hrest⟩ := hr
    have hhx : height x < f := by
      simp [heightElems] at hh
      omega
    have hhr : heightElems r < f := by
      simp [heightElems] at hh
      omega
    simp only [List.length_cons]
    rw [decodeElems]
    have hB : XPCObject.encodeElems (x :: r) ++ post =
        XPCObject.encodeObject x ++ (XPCObject.encodeElems r ++ post) := by
      simp [XPCObject.encodeElems, List.append_assoc]
    rw [hB]
    rw [decode_encodeObject x hx f pre _ hhx]
    simp only [bind, Except.bind]
    have hB2 : pre ++ (XPCObject.encodeObject x ++ (XPCObject.encodeElems r ++ post)) =
        (pre ++ XPCObject.encodeObject x) ++ (XPCObject.encodeElems r ++ post) := by
      simp [List.append_assoc]
    have hpos : pre.length + (XPCObject.encodeObject x).length =
        ((pre ++ XPCObject.encodeObject x) : List Nat).length := by
      simp [List.length_append]
    rw [hB2, hpos, decode_encodeElems r hrest f _ post hhr]
    simp only [bind, Except.bind]
    simp [negBoolsElems, XPCObject.encodeElems, List.length_append]
    omega

end

mutual

theorem height_le_encLen : ∀ x : XPCObject, height x ≤ (XPCObject.encodeObject x).length
  | .bool _ => by simp [height, XPCObject.encodeObject, le32]
  | .int64 n => by simp [height, XPCObject.encodeObject, le32, le64i, le64]
  | .uint64 n => by simp [height, XPCObject.encodeObject, le32, le64]
  | .string s => by simp [height, XPCObject.encodeObject, le32, List.length_append]
  | .data d => by simp [height, XPCObject.encodeObject, le32, List.length_append]
  | .uuid u => by simp [height, XPCObject.encodeObject, le32, List.length_append]
  | .dictionary d => by
    have hd := heightEntries_le_encLen d
    simp [height, XPCObject.encodeObject, le32, List.length_append]
    omega
  | .array l => by
    have hl := heightElems_le_encLen l
    simp [height, XPCObject.encodeObject, le32, List.length_append]
    omega

theorem heightEntries_le_encLen :
    ∀ l : List (List Nat × XPCObject), heightEntries l ≤ (XPCObject.encodeEntries l).length
  | [] => by simp [heightEntries, XPCObject.encodeEntries]
  | (k, v) :: r => by
    have hv := height_le_encLen v
    have hr := heightEntries_le_encLen r
    simp [heightEntries, XPCObject.encodeEntries, List.length_append]
    omega

theorem heightElems_le_encLen :
    ∀ l : List XPCObject, heightElems l ≤ (XPCObject.encodeElems l).length
  | [] => by simp [heightElems, XPCObject.encodeElems]
  | x :: r => by
    have hx := height_le_encLen x
    have hr := heightElems_le_encLen r
    simp [heightElems, XPCObject.encodeElems, List.length_append]
    omega

end

/-- Round trip of the object codec on representable trees: decoding an
encoded tree succeeds and returns the tree with every boolean leaf negated
(and exactly the tree itself when it contains no booleans).  Together with
the C1 evaluation this isolates the encoder/decoder mismatch to the boolean
value byte and the Uuid length field: every other variant round-trips
bit-exactly, dictionaries in insertion order. -/
theorem decode_encode_negBools (x : XPCObject) (h : rtOk x = true) :
    XPCObject.decode (XPCObject.encode x) = .ok (negBools x) := by
  have hlen : (XPCObject.encode x).length = 8 + (XPCObject.encodeObject x).length := by
    simp [XPCObject.encode, le32, List.length_append]
    omega
  have hdrop : (XPCObject.encode x).drop 8 = XPCObject.encodeObject x := by
    simp [XPCObject.encode, le32]
  have hmagic : u32At (XPCObject.encode x) 0 = 0x42133742 := by
    have h1 : u32At (XPCObject.encode x) 0 = leVal (le32 0x42133742) := rfl
    rw [h1, leVal_le32_small (by norm_num)]
  have hver : u32At (XPCObject.encode x) 4 = 0x00000005 := by
    have h1 : u32At (XPCObject.encode x) 4 = leVal (le32 0x00000005) := rfl
    rw [h1, leVal_le32_small (by norm_num)]
  have hfuel : height x < (XPCObject.encodeObject x).length + 1 := by
    have := height_le_encLen x
    omega
  have hobj := decode_encodeObject x h ((XPCObject.encodeObject x).length + 1) [] [] hfuel
  simp only [List.append_nil, List.nil_append, List.length_nil] at hobj
  rw [XPCObject.decode, if_neg (by omega), if_neg (by simp [hmagic]),
    if_neg (by omega), if_neg (by simp [hver]), hdrop, hobj]

mutual

theorem negBools_eq_self : ∀ x : XPCObject, boolFree x = true → negBools x = x
  | .bool b, h => by simp [boolFree] at h
  | .dictionary d, h => by
    rw [negBools, negBoolsEntries_eq_self d (by simpa [boolFree] using h)]
  | .array l, h => by
    rw [negBools, negBoolsElems_eq_self l (by simpa [boolFree] using h)]
  | .int64 n, _ => rfl
  | .uint64 n, _ => rfl
  | .string s, _ => rfl
  | .data d, _ => rfl
  | .uuid u, _ => rfl

theorem negBoolsEntries_eq_self :
    ∀ l : List (List Nat × XPCObject), boolFreeEntries l = true → negBoolsEntries l = l
  | [], _ => rfl
  | (k, v) :: r, h => by
    have h2 : boolFree v = true ∧ boolFreeEntries r = true := by
      simpa [boolFreeEntries] using h
    rw [negBoolsEntries, negBools_eq_self v h2.1, negBoolsEntries_eq_self r h2.2]

theorem negBoolsElems_eq_self :
    ∀ l : List XPCObject, boolFreeElems l = true → negBoolsElems l = l
  | [], _ => rfl
  | x :: r, h => by
    have h2 : boolFree x = true ∧ boolFreeElems r = true := by
      simpa [boolFreeElems] using h
    rw [negBoolsElems, negBools_eq_self x h2.1, negBoolsElems_eq_self r h2.2]

end

/-- Round trip of the object codec restricted to boolean-free representable
trees: decode is a left inverse of encode, bit-exactly, with dictionary key
order preserved. -/
theorem decode_encode_id (x : XPCObject) (h : rtOk x = true)
    (hb : boolFree x = true) :
    XPCObject.decode (XPCObject.encode x) = .ok x := by
  rw [decode_encode_negBools x h, negBools_eq_self x hb]

theorem encode_length (x : XPCObject) :
    (XPCObject.encode x).length = 8 + (XPCObject.encodeObject x).length := by
  simp [XPCObject.encode, le32, List.length_append]
  omega

/-- Round trip of the message framing on representable bodies: decoding an
encoded message recovers the flags, the passed message id, and the body with
every boolean leaf negated (exactly the body itself when it contains no
booleans, by negBools_eq_self). -/
theorem message_decode_encode (m : XPCMessage) (id : Nat)
    (hf : m.flags < 2 ^ 32) (hid : id < 2 ^ 64)
    (hbody : ∀ x, m.message = some x →
      rtOk x = true ∧ (XPCObject.encode x).length + 24 < 2 ^ 64) :
    XPCMessage.decode (XPCMessage.encode m id) =
      .ok ⟨m.flags, m.message.map negBools, some id⟩ := by
  cases hm : m.message with
  | none =>
    have hB : XPCMessage.encode m id =
        le32 0x29b00b92 ++ le32 m.flags ++ (le64 0 ++ le64 id) := by
      rw [XPCMessage.encode, hm]
    have hlen : (XPCMessage.encode m id).length = 24 := by
      rw [hB]
      simp [le32, le64, List.length_append]
    have hmagic : u32At (XPCMessage.encode m id) 0 = 0x29b00b92 := by
      have h1 : u32At (le32 0x29b00b92 ++ le32 m.flags ++ (le64 0 ++ le64 id)) 0 =
          leVal (le32 0x29b00b92) := rfl
      rw [hB, h1, leVal_le32_small (by norm_num)]
    have hflags : u32At (XPCMessage.encode m id) 4 = m.flags := by
      have h1 : u32At (le32 0x29b00b92 ++ le32 m.flags ++ (le64 0 ++ le64 id)) 4 =
          leVal (le32 m.flags) := rfl
      rw [hB, h1, leVal_le32_small hf]
    have hbl : u64At (XPCMessage.encode m id) 8 = 0 := by
      have h1 : u64At (le32 0x29b00b92 ++ le32 m.flags ++ (le64 0 ++ le64 id)) 8 =
          leVal (le64 0) := rfl
      rw [hB, h1, leVal_le64_small (by norm_num)]
    have hmid : u64At (XPCMessage.encode m id) 16 = id := by
      have h1 : u64At (le32 0x29b00b92 ++ le32 m.flags ++ (le64 0 ++ le64 id)) 16 =
          leVal (le64 id) := rfl
      rw [hB, h1, leVal_le64_small hid]
    rw [XPCMessage.decode, if_neg (by omega), if_neg (by simp [hmagic]),
      if_neg (by rw [hbl]; omega), if_pos hbl, hflags, hmid]
    simp
  | some x =>
    obtain ⟨hrt, hsz⟩ := hbody x hm
    have hB : XPCMessage.encode m id =
        le32 0x29b00b92 ++ le32 m.flags ++
          (le64 (XPCObject.encode x).length ++ le64 id ++ XPCObject.encode x) := by
      rw [XPCMessage.encode, hm]
    have hlen : (XPCMessage.encode m id).length = 24 + (XPCObject.encode x).length := by
      rw [hB]
      simp [le32, le64, List.length_append]
      omega
    have hmagic : u32At (XPCMessage.encode m id) 0 = 0x29b00b92 := by
      have h1 : u32At (le32 0x29b00b92 ++ le32 m.flags ++
          (le64 (XPCObject.encode x).length ++ le64 id ++ XPCObject.encode x)) 0 =
          leVal (le32 0x29b00b92) := rfl
      rw [hB, h1, leVal_le32_small (by norm_num)]
    have hflags : u32At (XPCMessage.encode m id) 4 = m.flags := by
      have h1 : u32At (le32 0x29b00b92 ++ le32 m.flags ++
          (le64 (XPCObject.encode x).length ++ le64 id ++ XPCObject.encode x)) 4 =
          leVal (le32 m.flags) := rfl
      rw [hB, h1, leVal_le32_small hf]
    have hbl : u64At (XPCMessage.encode m id) 8 = (XPCObject.encode x).length := by
      have h1 : u64At (le32 0x29b00b92 ++ le32 m.flags ++
          (le64 (XPCObject.encode x).length ++ le64 id ++ XPCObject.encode x)) 8 =
          leVal (le64 (XPCObject.encode x).length) := rfl
      rw [hB, h1, leVal_le64_small (by omega)]
    have hmid : u64At (XPCMessage.encode m id) 16 = id := by
      have h1 : u64At (le32 0x29b00b92 ++ le32 m.flags ++
          (le64 (XPCObject.encode x).length ++ le64 id ++ XPCObject.encode x)) 16 =
          leVal (le64 id) := rfl
      rw [hB, h1, leVal_le64_small hid]
    have hblpos : (XPCObject.encode x).length ≠ 0 := by
      rw [encode_length x]
      omega
    have hmod : ((XPCObject.encode x).length + 24) % 2 ^ 64 =
        (XPCObject.encode x).length + 24 := Nat.mod_eq_of_lt (by omega)
    have hmod2 : (24 + (XPCObject.encode x).length) % 2 ^ 64 =
        24 + (XPCObject.encode x).length := Nat.mod_eq_of_lt (by omega)
    have hslice : bytesAt (XPCMessage.encode m id) 24
        ((24 + u64At (XPCMessage.encode m id) 8) % 2 ^ 64 - 24) = XPCObject.encode x := by
      rw [hbl, hmod2]
      have h24 : (24 + (XPCObject.encode x).length) - 24 = (XPCObject.encode x).length := by
        omega
      rw [h24, hB]
      have hB2 : le32 0x29b00b92 ++ le32 m.flags ++
          (le64 (XPCObject.encode x).length ++ le64 id ++ XPCObject.encode x) =
          (le32 0x29b00b92 ++ le32 m.flags ++ le64 (XPCObject.encode x).length ++
            le64 id) ++ XPCObject.encode x := by
        simp [List.append_assoc]
      have h24b : (24 : Nat) = ((le32 0x29b00b92 ++ le32 m.flags ++
          le64 (XPCObject.encode x).length ++ le64 id : List Nat)).length := by
        simp [le32, le64, List.length_append]
      unfold bytesAt
      rw [hB2, h24b, List.drop_left, List.take_length]
    rw [XPCMessage.decode, if_neg (by omega), if_neg (by simp [hmagic]),
      if_neg (by rw [hbl, hmod]; omega), if_neg (by rw [hbl]; exact hblpos),
      if_pos (by rw [hbl, hmod2]; omega), hslice, decode_encode_negBools x hrt,
      hflags, hmid]
    rfl

end XPCFormat

open XPCFormat

set_option maxRecDepth 4000 in
/-- C7 (counterexample): the claim quantifies over every n ≥ 0, but
calculate_padding computes in f64, and at n = 2^53 + 1 the conversion
n as f64 rounds to 2^53, making the computed padding 0 while n requires 3:
padding(n) + n is not a multiple of 4 there. -/
theorem c7_padding_counterexample :
    ¬ ((calculatePadding (2 ^ 53 + 1) + (2 ^ 53 + 1)) % 4 = 0) := by decide

/-- C7 (amended): for every n ≤ 2^53 — the domain on which the f64
computation inside calculate_padding is exact, covering every length a real
buffer can have — padding(n) + n is a multiple of 4, 0 ≤ padding(n) < 4, and
padding(n) = ceil(n/4)*4 - n. -/
theorem c7_padding_aligned_small (n : Nat) (h : n ≤ 2 ^ 53) :
    (calculatePadding n + n) % 4 = 0 ∧ calculatePadding n < 4 ∧
      calculatePadding n = (n + 3) / 4 * 4 - n := by
  rw [calculatePadding_eq h]
  omega

/-- Witness for c7_padding_aligned_small at n = 6. -/
theorem c7_padding_aligned_small_witness :
    (calculatePadding 6 + 6) % 4 = 0 ∧ calculatePadding 6 < 4 ∧
      calculatePadding 6 = (6 + 3) / 4 * 4 - 6 :=
  c7_padding_aligned_small 6 (by norm_num)

/-- C1 (code evaluated at failing inputs): the encoder writes the boolean
with inverted sense (true as byte 0) but the decoder reads the byte with
plain sense (0 as false), so the round trip of Bool(true) — itself a
representable tree — yields Bool(false); and the decoder never consumes the
4-byte length field the encoder writes for Uuid, so a round-tripped Uuid
comes back shifted by four bytes, its first four bytes being the length
field 16,0,0,0.  Both refute decode(encode(x)) == x. -/
theorem c1_roundtrip_failures :
    XPCObject.decode (XPCObject.encode (.bool true)) = .ok (.bool false) ∧
      XPCObject.decode
          (XPCObject.encode (.uuid [1, 2, 3, 4, 5, 6, 7, 8, 9, 10, 11, 12, 13, 14, 15, 16])) =
        .ok (.uuid [16, 0, 0, 0, 1, 2, 3, 4, 5, 6, 7, 8, 9, 10, 11, 12]) :=
  ⟨rfl, rfl⟩

/-- C2 (code evaluated at the failing input): XPCObject::decode slices
buf[0..4] and buf[4..8] before any length check, so the empty buffer — and a
7-byte buffer that starts with the correct magic — make the slice index
panic (modelled as XPCError.crashed) instead of returning an error. -/
theorem c2_decode_short_buffer_crashes :
    XPCObject.decode [] = .error .crashed ∧
      XPCObject.decode [0x42, 0x37, 0x13, 0x42, 0x05, 0, 0] = .error .crashed :=
  ⟨rfl, rfl⟩

/-- C3 (counterexample): encode(Bool(true)) is 16 bytes (8-byte header plus
4-byte tag plus value byte plus 3 padding bytes), so decoding only the first
12 bytes stops at a failed read and does not return Bool(true) as claimed. -/
theorem c3_decode_12_bytes_fails :
    XPCObject.decode ((XPCObject.encode (.bool true)).take 12) =
      .error .readFailed := rfl

/-- C3 (amended): encoding Bool(true) produces, after the 8-byte header, the
4-byte tag 0x00002000, then a byte equal to 0, then 3 zero bytes — 16 bytes
in total — and decoding those 16 bytes (header included) returns Bool(false),
because the decoder reads the value byte with the opposite sense from the
encoder. -/
theorem c3_bool_true_encoding :
    XPCObject.encode (.bool true) =
        [0x42, 0x37, 0x13, 0x42, 0x05, 0, 0, 0, 0x00, 0x20, 0, 0, 0, 0, 0, 0] ∧
      XPCObject.decode
          [0x42, 0x37, 0x13, 0x42, 0x05, 0, 0, 0, 0x00, 0x20, 0, 0, 0, 0, 0, 0] =
        .ok (.bool false) :=
  ⟨rfl, rfl⟩

/-- C4 (code evaluated at the failing input): a message whose body is
Bool(true) encodes and decodes to a message whose body is Bool(false), so the
decoded message is not structurally equal to the original; the message-id and
flags parts hold, and the bodyless message does encode to exactly 24 bytes
(spec scenario D evaluated alongside). -/
theorem c4_message_roundtrip_negates_bool :
    XPCMessage.decode (XPCMessage.encode ⟨1, some (.bool true), none⟩ 42) =
        .ok ⟨1, some (.bool false), some 42⟩ ∧
      (XPCMessage.encode ⟨1, none, none⟩ 42).length = 24 ∧
      XPCMessage.decode (XPCMessage.encode ⟨1, none, none⟩ 42) =
        .ok ⟨1, none, some 42⟩ :=
  ⟨rfl, rfl, rfl⟩

/-- C5 (counterexample): a 24-byte buffer with valid magic that declares
body_len = 2^64 - 24 defeats the length guard — body_len + 24 wraps to 0 in
u64 arithmetic — and the subsequent slice data[24 .. 24 + body_len], whose
end wraps to 0 in usize arithmetic, panics (crashed) instead of returning the
body-length error the claim requires for every body_len + 24 exceeding the
buffer length. -/
theorem c5_bodylen_overflow_crashes :
    XPCMessage.decode
        (le32 0x29b00b92 ++ le32 1 ++ le64 (2 ^ 64 - 24) ++ le64 7) =
      .error .crashed := rfl

/-- C5 (amended): the message-framing decode contract.  Buffers shorter than
24 bytes fail with the too-short error; buffers with a wrong magic fail with
the magic error; for declared body lengths whose u64 sum body_len + 24 does
not overflow, a sum exceeding the buffer length fails with the body-length
error; a zero body length yields a message with no body whose flags and
message id are the header words; and every successful decode carries
message_id = Some of the u64 at bytes 16..24. -/
theorem c5_message_decode_contract :
    (∀ d : List Nat, d.length < 24 → XPCMessage.decode d = .error .msgTooShort) ∧
    (∀ d : List Nat, 24 ≤ d.length → u32At d 0 ≠ 0x29b00b92 →
        XPCMessage.decode d = .error .msgMagic) ∧
    (∀ d : List Nat, 24 ≤ d.length → u32At d 0 = 0x29b00b92 →
        u64At d 8 + 24 < 2 ^ 64 → d.length < u64At d 8 + 24 →
        XPCMessage.decode d = .error .msgBodyLen) ∧
    (∀ d : List Nat, 24 ≤ d.length → u32At d 0 = 0x29b00b92 → u64At d 8 = 0 →
        XPCMessage.decode d = .ok ⟨u32At d 4, none, some (u64At d 16)⟩) ∧
    (∀ (d : List Nat) (m : XPCMessage), XPCMessage.decode d = .ok m →
        m.message_id = some (u64At d 16)) := by
  refine ⟨fun d h => ?_, fun d h hm => ?_, fun d h hm hlt hgt => ?_,
    fun d h hm hz => ?_, fun d m h => ?_⟩
  · rw [XPCMessage.decode, if_pos h]
  · rw [XPCMessage.decode, if_neg (Nat.not_lt.mpr h), if_pos hm]
  · have hmod : (u64At d 8 + 24) % 2 ^ 64 = u64At d 8 + 24 := Nat.mod_eq_of_lt hlt
    rw [XPCMessage.decode, if_neg (Nat.not_lt.mpr h), if_neg (by simp [hm]), hmod,
      if_pos hgt]
  · rw [XPCMessage.decode, if_neg (Nat.not_lt.mpr h), if_neg (by simp [hm]),
      if_neg (by rw [hz]; omega), if_pos hz]
  · unfold XPCMessage.decode at h
    split_ifs at h
    all_goals
      first
        | (cases h; rfl)
        | (cases hx : XPCObject.decode (bytesAt d 24 ((24 + u64At d 8) % 2 ^ 64 - 24)) with
            | ok x =>
              rw [hx] at h
              cases h
              rfl
            | error e =>
              rw [hx] at h
              cases h)

/-- Witness for c5_message_decode_contract: the empty buffer is too short,
and a well-formed 24-byte header with body length 0 decodes to the bodyless
message with its flags and id. -/
theorem c5_message_decode_contract_witness :
    XPCMessage.decode [] = .error .msgTooShort ∧
      XPCMessage.decode (le32 0x29b00b92 ++ le32 1 ++ le64 0 ++ le64 42) =
        .ok ⟨1, none, some 42⟩ :=
  ⟨c5_message_decode_contract.1 [] (by decide),
   c5_message_decode_contract.2.2.2.1
     (le32 0x29b00b92 ++ le32 1 ++ le64 0 ++ le64 42)
     (by decide) (by decide) (by decide)⟩

/-- C9 (counterexample): the claim quantifies over every tree, but for a
string of 2^53 bytes the f64 padding computation rounds to 0 where 3 zero
bytes would be needed, and the encoding (8-byte header, 8 bytes of tag and
length, the payload and its NUL) is 2^53 + 17 bytes, which is not a multiple
of 4. -/
theorem c9_encode_length_counterexample :
    ¬ (4 ∣ (XPCObject.encode (.string (List.replicate (2 ^ 53) 104))).length) := by
  rw [encode_string_length, List.length_replicate, calculatePadding_pow53_succ]
  norm_num

/-- C9 (amended): for every tree whose string and key payloads are at most
2^53 - 1 bytes and whose data payloads are at most 2^53 bytes (every tree a
real process can hold), both the bare encoded object and the header-prefixed
encoding occupy a whole number of 4-byte words.  The bounds are tight: the
counterexample is a string payload of exactly 2^53 bytes. -/
theorem c9_encode_length_aligned (x : XPCObject) (h : sizesOk x = true) :
    4 ∣ (XPCObject.encodeObject x).length ∧ 4 ∣ (XPCObject.encode x).length := by
  have hm := encodeObject_length_mod x h
  have he : (XPCObject.encode x).length = 8 + (XPCObject.encodeObject x).length := by
    simp [XPCObject.encode, le32, List.length_append]
    omega
  constructor
  · omega
  · rw [he]
    omega

/-- Witness for c9_encode_length_aligned on a dictionary with a string
entry. -/
theorem c9_encode_length_aligned_witness :
    4 ∣ (XPCObject.encodeObject
          (.dictionary [([107], .string [104, 105])])).length ∧
      4 ∣ (XPCObject.encode (.dictionary [([107], .string [104, 105])])).length :=
  c9_encode_length_aligned (.dictionary [([107], .string [104, 105])]) (by decide)

/-- C10: XPCMessage::decode only reads bytes [0, 24 + body_len): appending
arbitrary trailing bytes to any buffer that decodes successfully leaves the
decoded flags, message id and message unchanged. -/
theorem c10_decode_ignores_trailing (b extra : List Nat) (m : XPCMessage)
    (h : XPCMessage.decode b = .ok m) :
    XPCMessage.decode (b ++ extra) = .ok m := by
  have hlen : b.length ≤ (b ++ extra).length := by simp
  unfold XPCMessage.decode at h
  split_ifs at h with h1 h2 h3 h4 h5
  · cases h
    have hlb : 24 ≤ b.length := Nat.not_lt.mp h1
    have hu0 : u32At (b ++ extra) 0 = u32At b 0 := u32At_append _ (by omega)
    have hu4 : u32At (b ++ extra) 4 = u32At b 4 := u32At_append _ (by omega)
    have hu8 : u64At (b ++ extra) 8 = u64At b 8 := u64At_append _ (by omega)
    have hu16 : u64At (b ++ extra) 16 = u64At b 16 := u64At_append _ (by omega)
    rw [XPCMessage.decode, hu0, hu4, hu8, hu16,
      if_neg (Nat.not_lt.mpr (le_trans hlb hlen)), if_neg h2,
      if_neg (by omega), if_pos h4]
  · have hlb : 24 ≤ b.length := Nat.not_lt.mp h1
    have hu0 : u32At (b ++ extra) 0 = u32At b 0 := u32At_append _ (by omega)
    have hu4 : u32At (b ++ extra) 4 = u32At b 4 := u32At_append _ (by omega)
    have hu8 : u64At (b ++ extra) 8 = u64At b 8 := u64At_append _ (by omega)
    have hu16 : u64At (b ++ extra) 16 = u64At b 16 := u64At_append _ (by omega)
    have hby : bytesAt (b ++ extra) 24 ((24 + u64At b 8) % 2 ^ 64 - 24) =
        bytesAt b 24 ((24 + u64At b 8) % 2 ^ 64 - 24) :=
      bytesAt_append _ (by omega)
    rw [XPCMessage.decode, hu0, hu4, hu8, hu16,
      if_neg (Nat.not_lt.mpr (le_trans hlb hlen)), if_neg h2,
      if_neg (by omega), if_neg h4, if_pos (by omega), hby]
    cases hx : XPCObject.decode (bytesAt b 24 ((24 + u64At b 8) % 2 ^ 64 - 24)) with
    | ok x =>
      rw [hx] at h
      cases h
      rfl
    | error e =>
      rw [hx] at h
      cases h

/-- Witness for c10_decode_ignores_trailing: a bodyless 24-byte message with
one trailing byte appended decodes to the same message. -/
theorem c10_decode_ignores_trailing_witness :
    XPCMessage.decode
        ((le32 0x29b00b92 ++ le32 1 ++ le64 0 ++ le64 42) ++ [7]) =
      .ok ⟨1, none, some 42⟩ :=
  c10_decode_ignores_trailing
    (le32 0x29b00b92 ++ le32 1 ++ le64 0 ++ le64 42) [7] ⟨1, none, some 42⟩ rfl

/-- C8: converting a property-list value to an XPCObject fails — the Rust
impl panics, modelled as none — on every unsigned 64-bit integer outside the
signed 64-bit range, and on every date, real and uid value. -/
theorem c8_plist_unsupported_fails :
    (∀ n : Int, 2 ^ 63 ≤ n → fromPlist (.integer n) = none) ∧
      fromPlist .date = none ∧ fromPlist .real = none ∧ fromPlist .uid = none := by
  refine ⟨fun n h => ?_, rfl, rfl, rfl⟩
  have h2 : ¬ (-(2 ^ 63 : Int) ≤ n ∧ n < 2 ^ 63) := by
    have h3 : (2 ^ 63 : Int) = 9223372036854775808 := by norm_num
    omega
  rw [fromPlist, if_neg h2]

/-- Witness for c8_plist_unsupported_fails at n = 2^63. -/
theorem c8_plist_unsupported_fails_witness :
    fromPlist (.integer (2 ^ 63)) = none ∧
      fromPlist .date = none ∧ fromPlist .real = none ∧ fromPlist .uid = none :=
  ⟨c8_plist_unsupported_fails.1 (2 ^ 63) (le_refl _),
   c8_plist_unsupported_fails.2⟩

/-- C6: when decode_object reads a dictionary or array header whose declared
entry/element count exceeds the number of bytes remaining after the header —
more entries than the remaining buffer can possibly contain, since every
entry occupies at least 8 bytes — it returns an error that is not the fuel
artefact of the embedding: the loop terminates at a failed read (or
malformed key) and neither panics nor loops forever (the model decoder is a
total function, and the fuel the entry points pass is never exhausted). -/
theorem c6_count_overflow_errors (d : List Nat) (pos c fuel : Nat)
    (hTag : u32At d pos = 0xf000 ∨ u32At d pos = 0xe000)
    (hHdr : pos + 12 ≤ d.length)
    (hCnt : u32At d (pos + 8) = c)
    (hBig : d.length - (pos + 12) < c)
    (hFuel : d.length + 1 ≤ fuel + pos) :
    ∃ e, XPCObject.decodeObject fuel d pos = .error e ∧ e ≠ XPCError.noFuel := by
  cases hres : XPCObject.decodeObject fuel d pos with
  | error e =>
    refine ⟨e, rfl, fun he => ?_⟩
    exact decodeObject_ne_noFuel fuel d pos hFuel (by rw [hres, he])
  | ok xp =>
    exfalso
    obtain ⟨x, p⟩ := xp
    rw [XPCObject.decodeObject] at hres
    rw [readExact_ok (show pos + 4 ≤ d.length by omega)] at hres
    simp only [bind, Except.bind] at hres
    try dsimp only at hres
    unfold u32At at hCnt
    have hCnt2 : leVal (bytesAt d (pos + 4 + 4) 4) = c := by
      rw [show pos + 4 + 4 = pos + 8 by omega]
      exact hCnt
    have hcpos : 0 < c := by omega
    cases hTag with
    | inl hT =>
      unfold u32At at hT
      rw [hT] at hres
      rw [if_pos rfl] at hres
      cases fuel with
      | zero => cases hres
      | succ f =>
        rw [readExact_ok (show pos + 4 + 4 ≤ d.length by omega)] at hres
        simp only [bind, Except.bind] at hres
        try dsimp only at hres
        rw [readExact_ok (show pos + 4 + 4 + 4 ≤ d.length by omega)] at hres
        simp only [bind, Except.bind] at hres
        try dsimp only at hres
        rw [hCnt2] at hres
        cases he : decodeEntries (XPCObject.decodeObject f) d (pos + 4 + 4 + 4) c with
        | error e =>
          rw [he] at hres
          simp only [bind, Except.bind] at hres
          cases hres
        | ok lp =>
          obtain ⟨l, p4⟩ := lp
          have hb := decodeEntries_ok_bounds (XPCObject.decodeObject f) d
            (fun q y r hq => decodeObject_ok_bounds f d q y r hq)
            c (pos + 4 + 4 + 4) l p4 he
          have := hb.2.1 hcpos
          omega
    | inr hT =>
      unfold u32At at hT
      rw [hT] at hres
      rw [if_neg (by norm_num), if_pos rfl] at hres
      cases fuel with
      | zero => cases hres
      | succ f =>
        rw [readExact_ok (show pos + 4 + 4 ≤ d.length by omega)] at hres
        simp only [bind, Except.bind] at hres
        try dsimp only at hres
        rw [readExact_ok (show pos + 4 + 4 + 4 ≤ d.length by omega)] at hres
        simp only [bind, Except.bind] at hres
        try dsimp only at hres
        rw [hCnt2] at hres
        cases he : decodeElems (XPCObject.decodeObject f) d (pos + 4 + 4 + 4) c with
        | error e =>
          rw [he] at hres
          simp only [bind, Except.bind] at hres
          cases hres
        | ok lp =>
          obtain ⟨l, p4⟩ := lp
          have hb := decodeElems_ok_bounds (XPCObject.decodeObject f) d
            (fun q y r hq => decodeObject_ok_bounds f d q y r hq)
            c (pos + 4 + 4 + 4) l p4 he
          have := hb.2.1 hcpos
          omega

/-- Witness for c6_count_overflow_errors: a 12-byte buffer declaring an array
of 999 elements surfaces an error. -/
theorem c6_count_overflow_errors_witness :
    ∃ e, XPCObject.decodeObject 13
        [0, 0xe0, 0, 0, 0, 0, 0, 0, 0xe7, 3, 0, 0] 0 = .error e ∧
      e ≠ XPCError.noFuel :=
  c6_count_overflow_errors [0, 0xe0, 0, 0, 0, 0, 0, 0, 0xe7, 3, 0, 0] 0 999 13
    (by right; decide) (by decide) (by decide) (by decide) (by decide)

